import Mathlib

/-!
Verification development for the EPUB merge/split engine
(`plugins/epub_tool/utils/merge_epub.py` and `split_epub.py`).

Strings are modelled as `List Char`, read as byte sequences: every character
stands for one byte of the UTF-8 encoded text (the Python code decodes,
transforms and re-encodes UTF-8; all delimiters the code splits on are ASCII,
so the byte-level view is faithful).  Percent-encoding (`urllib.parse.quote` /
`unquote`) operates on bytes in CPython as well.
-/

/-- Byte-level model of splitting an attribute value at the first `#`,
as done by `value.split("#", 1)` in `_replace_attr` (merge_epub.py:258-260);
the second component keeps the leading `#` (the code re-prepends it). -/
def fragSplit : List Char → List Char × List Char
  | [] => ([], [])
  | c :: rest =>
    if c = '#' then ([], '#' :: rest)
    else
      let p := fragSplit rest
      (c :: p.1, p.2)

/-- ASCII hex-digit test, as accepted by `urllib.parse.unquote`. -/
def isHexB (c : Char) : Bool :=
  c.isDigit || (decide ('a' ≤ c) && decide (c ≤ 'f')) || (decide ('A' ≤ c) && decide (c ≤ 'F'))

/-- Numeric value of an ASCII hex digit. -/
def hexVal (c : Char) : Nat :=
  if c.isDigit then c.toNat - 48
  else if decide ('a' ≤ c) then c.toNat - 87
  else c.toNat - 55

/-- Byte-level model of `urllib.parse.unquote`: each `%XY` hex pair becomes
the byte `0xXY`; a `%` not followed by two hex digits is kept literally. -/
def unquoteBytes : List Char → List Char
  | c :: h1 :: h2 :: rest =>
    if c = '%' ∧ isHexB h1 ∧ isHexB h2 then
      Char.ofNat (hexVal h1 * 16 + hexVal h2) :: unquoteBytes rest
    else c :: unquoteBytes (h1 :: h2 :: rest)
  | c :: rest => c :: unquoteBytes rest
  | [] => []

/-- Upper-case hex digit, as produced by `urllib.parse.quote` (`%{:02X}`). -/
def hexDigitU (n : Nat) : Char :=
  Char.ofNat (if n < 10 then 48 + n else 55 + n)

/-- Characters `urllib.parse.quote` never escapes regardless of the `safe`
argument: ASCII letters, digits and `_.-~`. -/
def alwaysSafeB (c : Char) : Bool :=
  c.isAlpha || c.isDigit || c == '_' || c == '.' || c == '-' || c == '~'

/-- The `safe_chars` set used by `_update_references_in_content`
(merge_epub.py:272): the string literal `/:@!$&'()*+,;=`.
`Char.ofNat 39` is the apostrophe. -/
def safeChars : List Char :=
  ['/', ':', '@', '!', '$', '&', Char.ofNat 39, '(', ')', '*', '+', ',', ';', '=']

/-- Byte-level model of how `urllib.parse.quote` treats a single byte:
kept literally when always-safe or in `safe`, otherwise `%XY`. -/
def quoteByte (safe : List Char) (c : Char) : List Char :=
  if alwaysSafeB c || safe.contains c then [c]
  else ['%', hexDigitU (c.toNat / 16), hexDigitU (c.toNat % 16)]

/-- Byte-level model of `urllib.parse.quote(s, safe)`. -/
def quoteBytes (safe : List Char) : List Char → List Char
  | [] => []
  | c :: rest => quoteByte safe c ++ quoteBytes safe rest

/-! ### posixpath model

Byte-level models of the `posixpath` functions the engine uses:
`dirname`, `basename`, `join`, `normpath`, `relpath`. -/

/-- Split a path on `/`, as `path.split('/')` does (empty pieces kept). -/
def splitSlash : List Char → List (List Char)
  | [] => [[]]
  | c :: rest =>
    if c = '/' then [] :: splitSlash rest
    else
      match splitSlash rest with
      | [] => [[c]]
      | s :: ss => (c :: s) :: ss

/-- Join path components with `/`, as `'/'.join(comps)` does. -/
def joinSegs : List (List Char) → List Char
  | [] => []
  | [s] => s
  | s :: r :: rs => s ++ '/' :: joinSegs (r :: rs)

/-- The `..` path component. -/
def dotdot : List Char := ['.', '.']

/-- Number of leading slashes `posixpath.normpath` preserves
(1 normally, 2 for exactly two leading slashes, 0 for relative paths). -/
def initSlashes (p : List Char) : Nat :=
  if p.take 1 = ['/'] then
    (if p.take 2 = ['/', '/'] ∧ p.take 3 ≠ ['/', '/', '/'] then 2 else 1)
  else 0

/-- One step of `posixpath.normpath`'s component loop: drop empty and `.`
components, let `..` pop the previous component unless there is nothing to
pop (keeping the `..` for relative paths). -/
def normStep (isAbs : Bool) (acc : List (List Char)) (comp : List Char) : List (List Char) :=
  if comp = [] ∨ comp = ['.'] then acc
  else if comp ≠ dotdot then acc ++ [comp]
  else if (isAbs = false ∧ acc = []) ∨ (acc ≠ [] ∧ acc.getLast? = some dotdot) then acc ++ [comp]
  else if acc ≠ [] then acc.dropLast
  else acc

/-- The component loop of `posixpath.normpath`. -/
def normComps (isAbs : Bool) (comps : List (List Char)) : List (List Char) :=
  comps.foldl (normStep isAbs) []

/-- Byte-level model of `posixpath.normpath`. -/
def normpathB (p : List Char) : List Char :=
  if p = [] then ['.']
  else
    let isl := initSlashes p
    let ncs := normComps (decide (0 < isl)) (splitSlash p)
    let joined := List.replicate isl '/' ++ joinSegs ncs
    if joined = [] then ['.'] else joined

/-- Byte-level model of the two-argument `posixpath.join`. -/
def joinB (a b : List Char) : List Char :=
  if b.take 1 = ['/'] then b
  else if a = [] ∨ a.getLast? = some '/' then a ++ b
  else a ++ '/' :: b

/-- Nonempty components of a path (`[x for x in p.split('/') if x]`),
as `posixpath.relpath` builds its component lists. -/
def relSegsOf (p : List Char) : List (List Char) :=
  (splitSlash p).filter (fun s => !s.isEmpty)

/-- Length of the common prefix of two component lists
(`genericpath.commonprefix` on lists). -/
def commonPrefixLen : List (List Char) → List (List Char) → Nat
  | a :: as, b :: bs => if a = b then commonPrefixLen as bs + 1 else 0
  | _, _ => 0

/-- Model of `posixpath.relpath(path, start)` for relative `path` and
`start`: both are made absolute against the same working directory, which
cancels in the common-prefix subtraction, leaving this pure computation. -/
def relpathB (path start : List Char) : List Char :=
  let pl := relSegsOf path
  let sl := relSegsOf start
  let i := commonPrefixLen sl pl
  let rel := List.replicate (sl.length - i) dotdot ++ pl.drop i
  if rel = [] then ['.'] else joinSegs rel

/-- Byte-level model of `posixpath.basename`: the part after the last `/`. -/
def basenameB (p : List Char) : List Char :=
  (p.reverse.takeWhile (fun c => c != '/')).reverse

/-- The prefix of `p` up to and including the last `/` (empty when there is
no slash) — the `head` of `posixpath.dirname` before stripping. -/
def headSlashRaw (p : List Char) : List Char :=
  (p.reverse.dropWhile (fun c => c != '/')).reverse

/-- Byte-level model of `posixpath.dirname`: the part before the last `/`,
with trailing slashes stripped unless the head consists only of slashes. -/
def dirnameB (p : List Char) : List Char :=
  let head := headSlashRaw p
  if head ≠ [] ∧ ¬ (head.all (fun c => c == '/')) then
    (head.reverse.dropWhile (fun c => c == '/')).reverse
  else head

/-- Decimal digits of a natural number (fuel-driven; `natStr` supplies
enough fuel), matching Python `str(n)` for the f-string interpolations. -/
def natStrAux : Nat → Nat → List Char → List Char
  | 0, _, acc => acc
  | fuel + 1, n, acc =>
    if n < 10 then Char.ofNat (48 + n) :: acc
    else natStrAux fuel (n / 10) (Char.ofNat (48 + n % 10) :: acc)

/-- Decimal representation of `n`, as Python `str(n)` / `f"...{n}..."`. -/
def natStr (n : Nat) : List Char := natStrAux (n + 1) n []

/-! ### merge_epub.py models -/

/-- The `vol{n}_` prefix used by `_detect_conflicts` and the id remapping. -/
def volTag (n : Nat) : List Char := "vol".toList ++ natStr n ++ ['_']

/-- Add an element to a set modelled as a duplicate-free list (`set.add`). -/
def addSet (s : List (List Char)) (x : List Char) : List (List Char) :=
  if x ∈ s then s else s ++ [x]

/-- One file path of the conflict scan in `_detect_conflicts`
(merge_epub.py:205-210): state is `(seen, conflict_paths)`; a path already
seen goes into the conflict set, and every path goes into `seen`. -/
def conflictStep (sc : List (List Char) × List (List Char)) (fp : List Char) :
    List (List Char) × List (List Char) :=
  (addSet sc.1 fp, if fp ∈ sc.1 then addSet sc.2 fp else sc.2)

/-- The full conflict scan over all books' file sets, in merge order. -/
def conflictScan (allBookFiles : List (List (List Char))) :
    List (List Char) × List (List Char) :=
  allBookFiles.foldl (fun sc book => book.foldl conflictStep sc) ([], [])

/-- The renamed bookpath `_detect_conflicts` assigns to a conflicting path of
the source at 0-indexed position `volN - 1` (merge_epub.py:221-224):
`vol{volN}_` prefixed onto the basename, rejoined with the dirname. -/
def renameNew (volN : Nat) (fp : List Char) : List Char :=
  let d := dirnameB fp
  let nn := volTag volN ++ basenameB fp
  if d ≠ [] then joinB d nn else nn

/-- Model of `_detect_conflicts` (merge_epub.py:194-227).  Each input book's
bookpath set is a duplicate-free list; the result is one association list
(rename map, in iteration order) per book. -/
def detectConflicts (allBookFiles : List (List (List Char))) :
    List (List (List Char × List Char)) :=
  let conflictPaths := (conflictScan allBookFiles).2
  allBookFiles.enum.map (fun p =>
    if p.1 = 0 then []
    else p.2.filterMap (fun fp =>
      if fp ∈ conflictPaths then some (fp, renameNew (p.1 + 1) fp) else none))

/-- Value-level model of `_replace_attr` inside
`_update_references_in_content` (merge_epub.py:251-275), applied to one
href/src attribute value: split off the fragment, resolve against the
document's directory, and on a rename-map hit substitute the percent-encoded
new relative path with the fragment re-appended. -/
def replaceAttrValue (rm : List (List Char × List Char)) (contentDir value : List Char) :
    List Char :=
  let p := fragSplit value
  if p.1 = [] then value
  else
    let resolved := normpathB (joinB contentDir (unquoteBytes p.1))
    match rm.lookup resolved with
    | some newResolved => quoteBytes safeChars (relpathB newResolved contentDir) ++ p.2
    | none => value

/-- The reference resolution both the rewriter and the claim use: strip the
fragment, percent-decode, join with the containing directory, normalize. -/
def resolveRef (dir value : List Char) : List Char :=
  normpathB (joinB dir (unquoteBytes (fragSplit value).1))

/-- Model of the output-version computation in `_do_merge`
(merge_epub.py:563-568): `"3.0"` when the input versions differ, else the
shared version (both redundant checks of the code kept). -/
def outputVersion (versions : List (List Char)) : List Char :=
  let v1 := if 1 < versions.dedup.length then "3.0".toList else versions.headD []
  if versions.any (fun v => v != versions.headD []) then "3.0".toList else v1

/-- The fixed first two zip entry names every writer emits. -/
def mimetypePath : List Char := "mimetype".toList

/-- The container descriptor entry name. -/
def containerPath : List Char := "META-INF/container.xml".toList

/-- The dedup loop shared by `_write_epub` (merge_epub.py:456-459) and
`_write_split_epub` (split_epub.py:443-446): entry names actually written
from the `(bookpath, data)` list, skipping paths already in `written`. -/
def dedupWrite (written : List (List Char)) : List (List Char × List Char) → List (List Char)
  | [] => []
  | (bp, _) :: rest =>
    if bp ∈ written then dedupWrite written rest
    else bp :: dedupWrite (bp :: written) rest

/-- Zip entry names written by `_write_epub` (merge_epub.py:431-459), in
order.  `navPath`/`navContent` are `none` for Python `None`/empty; the nav
entry is written only when both are present, but `nav_path` alone already
enters the `written` set (merge_epub.py:453-454). -/
def writeEpubEntries (opfPath : List Char) (navPath navContent : Option (List Char))
    (allFiles : List (List Char × List Char)) : List (List Char) :=
  let navEntry : List (List Char) :=
    match navPath, navContent with
    | some np, some _ => [np]
    | _, _ => []
  let written :=
    [mimetypePath, containerPath, opfPath] ++
      (match navPath with
       | some np => [np]
       | none => [])
  ([mimetypePath, containerPath, opfPath] ++ navEntry) ++ dedupWrite written allFiles

/-- Zip entry names written by `_write_split_epub` (split_epub.py:414-446),
in order; same structure as `_write_epub` with the TOC in place of the nav. -/
def writeSplitEpubEntries (opfPath : List Char) (tocPath tocContent : Option (List Char))
    (filesData : List (List Char × List Char)) : List (List Char) :=
  let tocEntry : List (List Char) :=
    match tocPath, tocContent with
    | some tp, some _ => [tp]
    | _, _ => []
  let written :=
    [mimetypePath, containerPath, opfPath] ++
      (match tocPath with
       | some tp => [tp]
       | none => [])
  ([mimetypePath, containerPath, opfPath] ++ tocEntry) ++ dedupWrite written filesData

/-- One manifest item as parsed from an OPF: id, href, media-type,
properties string. -/
structure MItem where
  id : List Char
  href : List Char
  mediaType : List Char
  props : List Char
deriving DecidableEq

/-- Model of the unique-id assignment in `_do_merge` (merge_epub.py:600-606).
The `while` loop recomputes the same candidate `vol{N}_{id}_{len(used_ids)}`
on every iteration, so it either exits after one round or never; `none`
models the non-terminating case. -/
def assignId (used : List (List Char)) (volN : Nat) (itemId : List Char) :
    Option (List Char) :=
  if itemId ∉ used then some itemId
  else
    let c2 := volTag volN ++ itemId
    if c2 ∉ used then some c2
    else
      let c3 := c2 ++ ['_'] ++ natStr used.length
      if c3 ∉ used then some c3 else none

/-- Manifest items `_do_merge` skips when carrying a source over
(merge_epub.py:589-592): the NCX and any `nav`-flagged item
(`"nav" in props` is a substring test in Python). -/
def skipItem (it : MItem) : Bool :=
  it.mediaType == "application/x-dtbncx+xml".toList || decide ("nav".toList <:+: it.props)

/-- Ids assigned to the carried-over manifest items of one source
(merge_epub.py:585-612), threading the `used_ids` set; `none` if any id
assignment fails to terminate. -/
def mergeVolIds (volN : Nat) (items : List MItem) (used : List (List Char)) :
    Option (List (List Char) × List (List Char)) :=
  match items with
  | [] => some ([], used)
  | it :: rest =>
    if skipItem it then mergeVolIds volN rest used
    else
      match assignId used volN it.id with
      | none => none
      | some newId =>
        match mergeVolIds volN rest (used ++ [newId]) with
        | none => none
        | some (ids, usedOut) => some (newId :: ids, usedOut)

/-- Ids of all carried-over manifest items across the sources, in merge
order (volume numbers are 1-based as in `enumerate(epub_data)`). -/
def mergeAllIds (sources : List (List MItem)) (volIdx : Nat) (used : List (List Char)) :
    Option (List (List Char) × List (List Char)) :=
  match sources with
  | [] => some ([], used)
  | items :: rest =>
    match mergeVolIds (volIdx + 1) items used with
    | none => none
    | some (ids, used1) =>
      match mergeAllIds rest (volIdx + 1) used1 with
      | none => none
      | some (ids2, used2) => some (ids ++ ids2, used2)

/-- The id of the generated nav document appended in `_do_merge`
(merge_epub.py:643-646) without any uniqueness check. -/
def mergedNavId : List Char := "merged-nav".toList

/-- The full output manifest id list of a merge: carried-over items'
ids followed by the generated nav item's id. -/
def mergedManifestIds (sources : List (List MItem)) : Option (List (List Char)) :=
  match mergeAllIds sources 0 [] with
  | none => none
  | some (ids, _) => some (ids ++ [mergedNavId])

/-! ### split_epub.py models

XML parsing of nav/NCX documents is abstracted: the parse results
(`navParsed`, `ncxParsed`) and the resource collector of
`_collect_referenced_resources` are parameters, universally quantified in the
theorems, so no behavior of theirs is assumed. -/

/-- One TOC/split target (`{"title", "level", "href"}` dict). -/
structure Target where
  title : List Char
  level : Nat
  href : List Char
deriving DecidableEq

/-- One spine itemref: `(idref, linear, properties)`. -/
structure SItem where
  idref : List Char
  linear : List Char
  props : List Char
deriving DecidableEq

/-- ASCII lower-casing, modelling `str.lower()` for the ASCII extension
checks below. -/
def lowerB (s : List Char) : List Char := s.map Char.toLower

/-- The content-document test used throughout both modules:
`media_type == "application/xhtml+xml" or href.lower().endswith((".xhtml", ".html"))`. -/
def isContentDocB (mediaType href : List Char) : Bool :=
  mediaType == "application/xhtml+xml".toList ||
    decide (".xhtml".toList <:+ lowerB href) || decide (".html".toList <:+ lowerB href)

/-- Lookup in the manifest dict by item id (ids are unique dict keys). -/
def manifestLookup (manifest : List MItem) (idref : List Char) : Option MItem :=
  manifest.find? (fun it => it.id == idref)

/-- The `normpath(join(opf_dir, href)) if opf_dir else href` bookpath
computation used everywhere a manifest href is resolved. -/
def normJoinDir (opfDir href : List Char) : List Char :=
  if opfDir ≠ [] then normpathB (joinB opfDir href) else href

/-- Model of `_spine_as_targets` (split_epub.py:130-140): spine content
documents as flat level-1 targets titled by the href's basename. -/
def spineAsTargets (manifest : List MItem) (spine : List SItem) (opfDir : List Char) :
    List Target :=
  spine.filterMap (fun s =>
    match manifestLookup manifest s.idref with
    | none => none
    | some it =>
      if isContentDocB it.mediaType it.href then
        some ⟨basenameB it.href, 1, normJoinDir opfDir it.href⟩
      else none)

/-- Whether the manifest has a `nav`-flagged item (`"nav" in props`). -/
def hasNavItem (manifest : List MItem) : Bool :=
  manifest.any (fun it => decide ("nav".toList <:+: it.props))

/-- The nav/NCX stages of the TOC chain: EPUB3 nav parse if a nav item
exists, else NCX parse if the spine's `toc` id resolves; empty results fall
through. -/
def navNcxTargets (manifest : List MItem) (tocId : List Char)
    (navParsed ncxParsed : List Target) : List Target :=
  if (if hasNavItem manifest then navParsed else []) = [] ∧ tocId ≠ [] ∧
      (manifestLookup manifest tocId).isSome
  then ncxParsed
  else (if hasNavItem manifest then navParsed else [])

/-- The effective TOC target list of both `list_split_targets`
(split_epub.py:169-186) and `_do_split` (split_epub.py:487-509): the nav/NCX
chain, falling back to the spine targets when it comes up empty. -/
def effectiveTocTargets (manifest : List MItem) (spine : List SItem)
    (opfDir tocId : List Char) (navParsed ncxParsed : List Target) : List Target :=
  if navNcxTargets manifest tocId navParsed ncxParsed = []
  then spineAsTargets manifest spine opfDir
  else navNcxTargets manifest tocId navParsed ncxParsed

/-- Model of `list_split_targets` after its guards: the fallback chain. -/
def listSplitTargetsModel (manifest : List MItem) (spine : List SItem)
    (opfDir tocId : List Char) (navParsed ncxParsed : List Target) : List Target :=
  effectiveTocTargets manifest spine opfDir tocId navParsed ncxParsed

/-- The guard structure of `list_split_targets` (split_epub.py:154-165):
a missing path, an invalid zip, or a missing OPF each yield `[]` by an early
`return` (no exception escapes; the function is total). -/
def listSplitTargetsTop (pathExists isZip opfFound : Bool) (targets : List Target) :
    List Target :=
  if pathExists = false then []
  else if isZip = false then []
  else if opfFound = false then []
  else targets

/-- Whether the package's manifest declares any XHTML content document
(spec wording: the package "has" an XHTML content document). -/
def manifestHasXhtmlDoc (manifest : List MItem) : Bool :=
  manifest.any (fun it => isContentDocB it.mediaType it.href)

/-- The deduplicated, ordered list of spine content-document bookpaths
(split_epub.py:522-532); the accumulator plays the role of
`spine_id_map`'s key set. -/
def spineBookpathsAux (manifest : List MItem) (opfDir : List Char) :
    List SItem → List (List Char) → List (List Char)
  | [], acc => acc
  | s :: rest, acc =>
    match manifestLookup manifest s.idref with
    | none => spineBookpathsAux manifest opfDir rest acc
    | some it =>
      if isContentDocB it.mediaType it.href then
        spineBookpathsAux manifest opfDir rest
          (if normJoinDir opfDir it.href ∈ acc then acc
           else acc ++ [normJoinDir opfDir it.href])
      else spineBookpathsAux manifest opfDir rest acc

/-- `spine_bookpaths` of `_do_split`. -/
def spineBookpathsOf (manifest : List MItem) (spine : List SItem) (opfDir : List Char) :
    List (List Char) :=
  spineBookpathsAux manifest opfDir spine []

/-- `target_spine_indices` (split_epub.py:536-543): each target href's
position in the spine bookpath list, `-1` when absent. -/
def targetSpineIndices (sbp : List (List Char)) (targets : List Target) : List Int :=
  targets.map (fun t =>
    if t.href ∈ sbp then ((@List.indexOf (List Char) instBEqOfDecidableEq t.href sbp : Nat) : Int)
    else -1)

/-- Ascending insertion, for `sorted(set(split_points))`. -/
def insertAsc (x : Int) : List Int → List Int
  | [] => [x]
  | y :: ys => if x ≤ y then x :: y :: ys else y :: insertAsc x ys

/-- `sorted(set(split_points))`: distinct split points in ascending order. -/
def sortedPointsOf (splitPoints : List Int) : List Int :=
  splitPoints.dedup.foldr insertAsc []

/-- Resolved spine start for the split point at target index `pt`
(split_epub.py:550-558): the target's own spine index if nonnegative, else
the first nonnegative index scanning forward, else `0`. -/
def scanStart (tsi : List Int) (pt : Nat) : Int :=
  ((tsi.drop pt).find? (fun x => decide (0 ≤ x))).getD 0

/-- Resolved spine end for the next split point at target index `pt`
(split_epub.py:561-570): like `scanStart` but defaulting to the spine
length. -/
def scanEnd (tsi : List Int) (pt : Nat) (sbpLen : Nat) : Int :=
  ((tsi.drop pt).find? (fun x => decide (0 ≤ x))).getD (sbpLen : Int)

/-- `segment_ranges` (split_epub.py:548-574): one `(start, end)` spine range
per sorted split point; the last segment ends at the spine length. -/
def segmentRangesAux (tsi : List Int) (sbpLen : Nat) : List Int → List (Int × Int)
  | [] => []
  | [pt] => [(scanStart tsi pt.toNat, (sbpLen : Int))]
  | pt :: pt2 :: rest =>
    (scanStart tsi pt.toNat, scanEnd tsi pt2.toNat sbpLen) ::
      segmentRangesAux tsi sbpLen (pt2 :: rest)

/-- `range(a, b)` over naturals. -/
def idxList (a b : Nat) : List Nat := (List.range (b - a)).map (fun i => a + i)

/-- Content documents claimed by one segment (split_epub.py:595-600):
spine positions in the range, skipping bookpaths already assigned to an
earlier segment; returns the updated assigned set and the segment list. -/
def segContentAux (sbp : List (List Char)) (assigned : List (List Char)) :
    List Nat → List (List Char) × List (List Char)
  | [] => (assigned, [])
  | i :: rest =>
    if sbp.getD i [] ∈ assigned then segContentAux sbp assigned rest
    else
      ((segContentAux sbp (assigned ++ [sbp.getD i []]) rest).1,
        sbp.getD i [] :: (segContentAux sbp (assigned ++ [sbp.getD i []]) rest).2)

/-- Two-digit zero-padded decimal, Python `f"{n:02d}"`. -/
def pad2 (n : Nat) : List Char := if n < 10 then '0' :: natStr n else natStr n

/-- One produced split segment: output filename, assigned content
documents, collected resources. -/
structure SegOut where
  filename : List Char
  contentDocs : List (List Char)
  resources : List (List Char)
deriving DecidableEq

/-- The resource set of one segment (split_epub.py:607-617): the collected
references minus the segment's own content documents and the nav/NCX paths
(the collector's set semantics make list order immaterial here). -/
def resourcesOf (collect : List (List Char) → List (List Char))
    (navPath ncxPath : Option (List Char)) (segContent : List (List Char)) :
    List (List Char) :=
  match ncxPath with
  | some np2 =>
    (match navPath with
     | some np => ((collect segContent).filter
         (fun bp => decide (bp ∉ segContent))).filter (fun bp => bp != np)
     | none => (collect segContent).filter
         (fun bp => decide (bp ∉ segContent))).filter (fun bp => bp != np2)
  | none =>
    match navPath with
    | some np => ((collect segContent).filter
        (fun bp => decide (bp ∉ segContent))).filter (fun bp => bp != np)
    | none => (collect segContent).filter (fun bp => decide (bp ∉ segContent))

/-- The per-segment loop of `_do_split` (split_epub.py:590-710): claim
content documents first-come-first-served, skip empty segments (they still
consume a sequence number), collect referenced resources, and name the
output `{basename}_{seq:02d}.epub`. -/
def buildSegments (sbp : List (List Char)) (basename : List Char)
    (collect : List (List Char) → List (List Char)) (navPath ncxPath : Option (List Char)) :
    List (Int × Int) → Nat → List (List Char) → List SegOut
  | [], _, _ => []
  | r :: rest, segIdx, assigned =>
    if (segContentAux sbp assigned (idxList r.1.toNat r.2.toNat)).2 = [] then
      buildSegments sbp basename collect navPath ncxPath rest (segIdx + 1)
        (segContentAux sbp assigned (idxList r.1.toNat r.2.toNat)).1
    else
      ⟨basename ++ ['_'] ++ pad2 (segIdx + 1) ++ ".epub".toList,
        (segContentAux sbp assigned (idxList r.1.toNat r.2.toNat)).2,
        resourcesOf collect navPath ncxPath
          (segContentAux sbp assigned (idxList r.1.toNat r.2.toNat)).2⟩ ::
        buildSegments sbp basename collect navPath ncxPath rest (segIdx + 1)
          (segContentAux sbp assigned (idxList r.1.toNat r.2.toNat)).1

/-- Bookpath of the first `nav`-flagged manifest item, if any
(`nav_item_path`, split_epub.py:489-496). -/
def navItemPathOf (manifest : List MItem) (opfDir : List Char) : Option (List Char) :=
  match manifest.find? (fun it => decide ("nav".toList <:+: it.props)) with
  | some it => some (normJoinDir opfDir it.href)
  | none => none

/-- Model of `_do_split` (split_epub.py:476-713) from parse results onward:
returns the exit code and the produced segments (each written archive is one
`SegOut`).  Validation of the split points precedes all segment output. -/
def doSplitModel (manifest : List MItem) (spine : List SItem)
    (opfDir tocId basename : List Char) (navParsed ncxParsed : List Target)
    (collect : List (List Char) → List (List Char)) (splitPoints : List Int) :
    Nat × List SegOut :=
  let tocTargets := effectiveTocTargets manifest spine opfDir tocId navParsed ncxParsed
  if tocTargets = [] then (1, [])
  else
    let sortedPoints := sortedPointsOf splitPoints
    if sortedPoints.any (fun pt => decide (pt < 0) || decide ((tocTargets.length : Int) ≤ pt))
    then (1, [])
    else
      let navPath := navItemPathOf manifest opfDir
      let usedNav := hasNavItem manifest ∧ navParsed ≠ []
      let ncxPath :=
        if ¬ usedNav ∧ tocId ≠ [] then
          match manifestLookup manifest tocId with
          | some it => some (normJoinDir opfDir it.href)
          | none => none
        else none
      let sbp := spineBookpathsOf manifest spine opfDir
      let tsi := targetSpineIndices sbp tocTargets
      let ranges := segmentRangesAux tsi sbp.length sortedPoints
      (0, buildSegments sbp basename collect navPath ncxPath ranges 0 [])

/-- The segment ranges `_do_split` computes for a given invocation, named
for the statements about dropped content. -/
def splitRangesOf (manifest : List MItem) (spine : List SItem)
    (opfDir tocId : List Char) (navParsed ncxParsed : List Target)
    (splitPoints : List Int) : List (Int × Int) :=
  segmentRangesAux
    (targetSpineIndices (spineBookpathsOf manifest spine opfDir)
      (effectiveTocTargets manifest spine opfDir tocId navParsed ncxParsed))
    (spineBookpathsOf manifest spine opfDir).length
    (sortedPointsOf splitPoints)

/-- Canonicality of one path segment, per the Bookpath data model:
nonempty and neither `.` nor `..`. -/
def isCanonSeg (s : List Char) : Bool :=
  decide (s ≠ []) && decide (s ≠ ['.']) && decide (s ≠ ['.', '.'])

/-- Canonical bookpath per the data model: nonempty, slash-separated,
archive-root-relative, no `.`/`..` segments — hence also no leading,
trailing or doubled slash. -/
def isCanonPath (p : List Char) : Bool :=
  decide (p ≠ []) && (splitSlash p).all isCanonSeg

/-- The safe character set the specification claims for reference
rewriting: `:/?#[]@!$&'()*+,;=` — stated from the spec's words, to be
compared with the code's actual `safeChars`. -/
def claimedSafeChars : List Char :=
  [':', '/', '?', '#', '[', ']', '@', '!', '$', '&', Char.ofNat 39,
   '(', ')', '*', '+', ',', ';', '=']

/-! ### Theorems -/

/-- Helper: a nonempty list whose elements are all `V` dedups to `[V]`-like
length, i.e. its dedup has length at most 1. -/
theorem dedup_length_le_one {α : Type} [DecidableEq α] (l : List α) (V : α)
    (h : ∀ v ∈ l, v = V) : ¬ 1 < l.dedup.length := by
  intro hlt
  match hd : l.dedup with
  | [] => rw [hd] at hlt; simp at hlt
  | [x] => rw [hd] at hlt; simp at hlt
  | x :: y :: t =>
    have hnd := l.nodup_dedup
    rw [hd] at hnd
    have hx : x ∈ l.dedup := by rw [hd]; exact List.mem_cons_self _ _
    have hy : y ∈ l.dedup := by rw [hd]; exact List.mem_cons_of_mem _ (List.mem_cons_self _ _)
    rw [List.mem_dedup] at hx hy
    have hxV := h x hx
    have hyV := h y hy
    rcases List.nodup_cons.mp hnd with ⟨hxny, _⟩
    exact hxny (by rw [hxV, hyV]; exact List.mem_cons_self _ _)

/-- C3.  For every merge of N ≥ 2 packages, the output OPF version computed
by `_do_merge` (merge_epub.py:563-568) is `"3.0"` whenever the input version
strings are not all equal, and equals the single shared version `V` whenever
all inputs have version `V`. -/
theorem merged_version_spec (versions : List (List Char)) (h2 : 2 ≤ versions.length) :
    ((∃ a ∈ versions, ∃ b ∈ versions, a ≠ b) → outputVersion versions = "3.0".toList) ∧
    (∀ V, (∀ v ∈ versions, v = V) → outputVersion versions = V) := by
  match versions, h2 with
  | v0 :: rest, _ =>
    constructor
    · rintro ⟨a, ha, b, hb, hab⟩
      have hex : ∃ w ∈ v0 :: rest, w ≠ v0 := by
        by_cases hav : a = v0
        · exact ⟨b, hb, by rw [hav] at hab; exact fun hbv => hab hbv.symm⟩
        · exact ⟨a, ha, hav⟩
      unfold outputVersion
      have hany : (v0 :: rest).any (fun v => v != (v0 :: rest).headD []) = true := by
        rcases hex with ⟨w, hw, hwne⟩
        exact List.any_eq_true.mpr ⟨w, hw, by simpa using hwne⟩
      simp only [hany, if_true]
    · intro V hall
      have hv0 : v0 = V := hall v0 (List.mem_cons_self _ _)
      subst hv0
      unfold outputVersion
      have hany : (v0 :: rest).any (fun v => v != (v0 :: rest).headD []) = false := by
        rw [List.any_eq_false]
        intro x hx
        simp only [List.headD_cons, bne_iff_ne, ne_eq, not_not]
        rw [hall x hx]
      have hded : ¬ 1 < (v0 :: rest).dedup.length := dedup_length_le_one _ v0 hall
      simp only [List.headD_cons] at hany
      simp only [hany, if_false, hded, if_false, List.headD_cons]
      simp [hany]

/-- Witness for C3 at concrete inputs: versions 2.0/3.0 mix gives 3.0, a
shared 2.0 stays 2.0. -/
theorem merged_version_spec_witness :
    outputVersion ["2.0".toList, "3.0".toList] = "3.0".toList ∧
    outputVersion ["2.0".toList, "2.0".toList] = "2.0".toList := by
  constructor
  · exact (merged_version_spec ["2.0".toList, "3.0".toList] (by decide)).1
      ⟨"2.0".toList, by decide, "3.0".toList, by decide, by decide⟩
  · exact (merged_version_spec ["2.0".toList, "2.0".toList] (by decide)).2
      "2.0".toList (by decide)

/-- Helper: entries emitted by the dedup loop avoid the initial `written`
set and contain no duplicates. -/
theorem dedupWrite_spec (l : List (List Char × List Char)) :
    ∀ w : List (List Char), (∀ x ∈ dedupWrite w l, x ∉ w) ∧ (dedupWrite w l).Nodup := by
  induction l with
  | nil => intro w; constructor
           · intro x hx; simp [dedupWrite] at hx
           · simp [dedupWrite]
  | cons hd tl ih =>
    intro w
    obtain ⟨bp, data⟩ := hd
    by_cases hmem : bp ∈ w
    · simp only [dedupWrite, if_pos hmem]
      exact ih w
    · simp only [dedupWrite, if_neg hmem]
      obtain ⟨ihdis, ihnd⟩ := ih (bp :: w)
      constructor
      · intro x hx
        rcases List.mem_cons.mp hx with hx | hx
        · rw [hx]; exact hmem
        · intro hxw
          exact ihdis x hx (List.mem_cons_of_mem _ hxw)
      · refine List.nodup_cons.mpr ⟨?_, ihnd⟩
        intro hbp
        exact ihdis bp hbp (List.mem_cons_self _ _)

/-- Helper: fixed header entries followed by the dedup loop seeded with a
superset of them give pairwise distinct entries. -/
theorem headers_dedupWrite_nodup (headers written : List (List Char))
    (files : List (List Char × List Char))
    (hnd : headers.Nodup) (hsub : ∀ x ∈ headers, x ∈ written) :
    (headers ++ dedupWrite written files).Nodup := by
  obtain ⟨hdis, hdn⟩ := dedupWrite_spec files written
  refine List.Nodup.append hnd hdn ?_
  intro x hx hx2
  exact hdis x hx2 (hsub x hx)

/-- C4.  For every invocation of the package writers `_write_epub`
(merge_epub.py:431-459) and `_write_split_epub` (split_epub.py:414-446) with
an arbitrary `(bookpath, bytes)` list — repeated bookpaths and bookpaths
equal to `mimetype`, the container descriptor, the OPF path or the TOC path
included — the written archive has pairwise distinct entry paths.  The
caller-fixed header paths are assumed pairwise distinct, which both call
sites guarantee (the OPF path always ends in `.opf`, the nav/TOC paths in
`.xhtml`/`.ncx`). -/
theorem writer_no_duplicate_entries
    (opfPath : List Char) (navPath navContent : Option (List Char))
    (allFiles : List (List Char × List Char))
    (opfPathS : List Char) (tocPath tocContent : Option (List Char))
    (filesData : List (List Char × List Char))
    (h1 : opfPath ≠ mimetypePath) (h2 : opfPath ≠ containerPath)
    (h3 : ∀ np, navPath = some np →
      np ≠ mimetypePath ∧ np ≠ containerPath ∧ np ≠ opfPath)
    (h4 : opfPathS ≠ mimetypePath) (h5 : opfPathS ≠ containerPath)
    (h6 : ∀ tp, tocPath = some tp →
      tp ≠ mimetypePath ∧ tp ≠ containerPath ∧ tp ≠ opfPathS) :
    (writeEpubEntries opfPath navPath navContent allFiles).Nodup ∧
    (writeSplitEpubEntries opfPathS tocPath tocContent filesData).Nodup := by
  have hmc : mimetypePath ≠ containerPath := by decide
  constructor
  · match navPath, navContent with
    | some np, some nc =>
      obtain ⟨t1, t2, t3⟩ := h3 np rfl
      refine headers_dedupWrite_nodup _ _ _ ?_ ?_
      · simp [List.nodup_cons, hmc, h1.symm, h2.symm, t1.symm, t2.symm, t3.symm]
      · intro x hx; simpa [writeEpubEntries] using hx
    | some np, none =>
      refine headers_dedupWrite_nodup _ _ _ ?_ ?_
      · simp [List.nodup_cons, hmc, h1.symm, h2.symm]
      · intro x hx; simp at hx; simp; tauto
    | none, nc =>
      refine headers_dedupWrite_nodup _ _ _ ?_ ?_
      · simp [List.nodup_cons, hmc, h1.symm, h2.symm]
      · intro x hx; simp at hx; simp; tauto
  · match tocPath, tocContent with
    | some tp, some tc =>
      obtain ⟨t1, t2, t3⟩ := h6 tp rfl
      refine headers_dedupWrite_nodup _ _ _ ?_ ?_
      · simp [List.nodup_cons, hmc, h4.symm, h5.symm, t1.symm, t2.symm, t3.symm]
      · intro x hx; simpa [writeSplitEpubEntries] using hx
    | some tp, none =>
      refine headers_dedupWrite_nodup _ _ _ ?_ ?_
      · simp [List.nodup_cons, hmc, h4.symm, h5.symm]
      · intro x hx; simp at hx; simp; tauto
    | none, tc =>
      refine headers_dedupWrite_nodup _ _ _ ?_ ?_
      · simp [List.nodup_cons, hmc, h4.symm, h5.symm]
      · intro x hx; simp at hx; simp; tauto

/-- Witness for C4 at a concrete invocation: duplicate bookpaths and
bookpaths equal to `mimetype`, the container path, the OPF path and the nav
path in the input list still produce duplicate-free entries. -/
theorem writer_no_duplicate_entries_witness :
    (writeEpubEntries "OEBPS/content.opf".toList (some "OEBPS/nav.xhtml".toList)
      (some "x".toList)
      [("mimetype".toList, []), ("META-INF/container.xml".toList, []),
       ("OEBPS/content.opf".toList, []), ("OEBPS/nav.xhtml".toList, []),
       ("OEBPS/a.xhtml".toList, []), ("OEBPS/a.xhtml".toList, [])]).Nodup ∧
    (writeSplitEpubEntries "OEBPS/content.opf".toList (some "OEBPS/toc_split.ncx".toList)
      (some "x".toList)
      [("OEBPS/a.xhtml".toList, []), ("OEBPS/a.xhtml".toList, []),
       ("mimetype".toList, [])]).Nodup :=
  writer_no_duplicate_entries
    "OEBPS/content.opf".toList (some "OEBPS/nav.xhtml".toList) (some "x".toList)
    [("mimetype".toList, []), ("META-INF/container.xml".toList, []),
     ("OEBPS/content.opf".toList, []), ("OEBPS/nav.xhtml".toList, []),
     ("OEBPS/a.xhtml".toList, []), ("OEBPS/a.xhtml".toList, [])]
    "OEBPS/content.opf".toList (some "OEBPS/toc_split.ncx".toList) (some "x".toList)
    [("OEBPS/a.xhtml".toList, []), ("OEBPS/a.xhtml".toList, []),
     ("mimetype".toList, [])]
    (by decide) (by decide)
    (by intro np hnp; injection hnp with h; rw [← h]; exact ⟨by decide, by decide, by decide⟩)
    (by decide) (by decide)
    (by intro tp htp; injection htp with h; rw [← h]; exact ⟨by decide, by decide, by decide⟩)

/-- C10.  For every input path that does not exist on disk or is not a valid
zip archive, `list_split_targets` (split_epub.py:154-159) returns the empty
list: the guards return `[]` before any parsing, and the model is a total
function, so no exception is raised. -/
theorem list_split_targets_guard (pathExists isZip opfFound : Bool) (targets : List Target)
    (h : pathExists = false ∨ isZip = false) :
    listSplitTargetsTop pathExists isZip opfFound targets = [] := by
  rcases h with h | h
  · subst h; rfl
  · subst h
    cases pathExists <;> rfl

/-- Witness for C10: a missing path, and an existing path that is not a
zip, both yield the empty target list. -/
theorem list_split_targets_guard_witness :
    listSplitTargetsTop false true true [⟨"t".toList, 1, "a.xhtml".toList⟩] = [] ∧
    listSplitTargetsTop true false true [⟨"t".toList, 1, "a.xhtml".toList⟩] = [] :=
  ⟨list_split_targets_guard false true true _ (Or.inl rfl),
   list_split_targets_guard true false true _ (Or.inr rfl)⟩

/-- Helper: membership in ascending insertion. -/
theorem mem_insertAsc (x y : Int) (l : List Int) : x ∈ insertAsc y l ↔ x = y ∨ x ∈ l := by
  induction l with
  | nil => simp [insertAsc]
  | cons z zs ih =>
    by_cases hle : y ≤ z
    · simp [insertAsc, hle]
    · simp only [insertAsc, if_neg hle, List.mem_cons, ih]
      tauto

/-- Helper: `sorted(set(points))` has the same members as `points`. -/
theorem mem_sortedPointsOf (x : Int) (splitPoints : List Int) :
    x ∈ sortedPointsOf splitPoints ↔ x ∈ splitPoints := by
  unfold sortedPointsOf
  rw [← List.mem_dedup (l := splitPoints)]
  generalize splitPoints.dedup = l
  induction l with
  | nil => simp
  | cons z zs ih => simp only [List.foldr_cons, mem_insertAsc, List.mem_cons, ih]

/-- C5.  For every split invocation in which some requested split-point
index is negative or at least the number of TOC targets, `_do_split`
(split_epub.py:515-520) returns a nonzero code and produces no output
archive: validation precedes all segment generation. -/
theorem split_invalid_point_no_output
    (manifest : List MItem) (spine : List SItem) (opfDir tocId basename : List Char)
    (navParsed ncxParsed : List Target)
    (collect : List (List Char) → List (List Char)) (splitPoints : List Int)
    (h : ∃ pt ∈ splitPoints, pt < 0 ∨
      ((effectiveTocTargets manifest spine opfDir tocId navParsed ncxParsed).length : Int) ≤ pt) :
    (doSplitModel manifest spine opfDir tocId basename navParsed ncxParsed collect
      splitPoints).1 ≠ 0 ∧
    (doSplitModel manifest spine opfDir tocId basename navParsed ncxParsed collect
      splitPoints).2 = [] := by
  by_cases hempty : effectiveTocTargets manifest spine opfDir tocId navParsed ncxParsed = []
  · constructor <;> simp [doSplitModel, hempty]
  · have hany : (sortedPointsOf splitPoints).any
        (fun pt => decide (pt < 0) ||
          decide (((effectiveTocTargets manifest spine opfDir tocId navParsed
            ncxParsed).length : Int) ≤ pt)) = true := by
      rcases h with ⟨pt, hmem, hout⟩
      refine List.any_eq_true.mpr ⟨pt, (mem_sortedPointsOf pt splitPoints).mpr hmem, ?_⟩
      rcases hout with hout | hout <;> simp [hout]
    constructor <;> simp [doSplitModel, hempty, hany]

/-- Witness for C5: one content document, spine-fallback TOC of length 1,
requested split point 5 out of range. -/
theorem split_invalid_point_no_output_witness :
    (doSplitModel [⟨"a".toList, "a.xhtml".toList, "application/xhtml+xml".toList, []⟩]
      [⟨"a".toList, [], []⟩] [] [] "book".toList [] [] (fun _ => []) [5]).1 ≠ 0 ∧
    (doSplitModel [⟨"a".toList, "a.xhtml".toList, "application/xhtml+xml".toList, []⟩]
      [⟨"a".toList, [], []⟩] [] [] "book".toList [] [] (fun _ => []) [5]).2 = [] :=
  split_invalid_point_no_output _ _ _ _ _ _ _ _ _ ⟨5, by decide, Or.inr (by decide)⟩

/-- Helper: membership in the set model's `add`. -/
theorem mem_addSet (s : List (List Char)) (y x : List Char) :
    x ∈ addSet s y ↔ x ∈ s ∨ x = y := by
  unfold addSet
  by_cases hy : y ∈ s
  · simp only [if_pos hy]
    constructor
    · exact Or.inl
    · rintro (h | h)
      · exact h
      · rw [h]; exact hy
  · simp [if_neg hy]

/-- Helper: the `seen` component after scanning one book. -/
theorem bookFold_seen (b : List (List Char)) :
    ∀ sc : List (List Char) × List (List Char), ∀ x,
      (x ∈ (b.foldl conflictStep sc).1 ↔ x ∈ sc.1 ∨ x ∈ b) := by
  induction b with
  | nil => intro sc x; simp
  | cons fp rest ih =>
    intro sc x
    rw [List.foldl_cons, ih]
    simp only [conflictStep, mem_addSet, List.mem_cons]
    tauto

/-- Helper: the conflict component after scanning one duplicate-free book:
a path lands there iff it was already a conflict or is shared with `seen`. -/
theorem bookFold_conf (b : List (List Char)) (hnd : b.Nodup) :
    ∀ sc : List (List Char) × List (List Char), ∀ x,
      (x ∈ (b.foldl conflictStep sc).2 ↔ x ∈ sc.2 ∨ (x ∈ b ∧ x ∈ sc.1)) := by
  induction b with
  | nil => intro sc x; simp
  | cons fp rest ih =>
    intro sc x
    obtain ⟨hfp, hndr⟩ := List.nodup_cons.mp hnd
    rw [List.foldl_cons, ih hndr]
    have hstep1 : (conflictStep sc fp).1 = addSet sc.1 fp := rfl
    have hstep2 : x ∈ (conflictStep sc fp).2 ↔ x ∈ sc.2 ∨ (fp ∈ sc.1 ∧ x = fp) := by
      simp only [conflictStep]
      by_cases hin : fp ∈ sc.1
      · simp only [if_pos hin, mem_addSet]
        tauto
      · simp only [if_neg hin]
        tauto
    rw [hstep2, hstep1]
    simp only [mem_addSet, List.mem_cons]
    constructor
    · rintro ((h | ⟨h1, h2⟩) | ⟨h1, h2 | h2⟩)
      · exact Or.inl h
      · exact Or.inr ⟨Or.inl h2, h2 ▸ h1⟩
      · exact Or.inr ⟨Or.inr h1, h2⟩
      · exact absurd (h2 ▸ h1) hfp
    · rintro (h | ⟨h1 | h1, h2⟩)
      · exact Or.inl (Or.inl h)
      · exact Or.inl (Or.inr ⟨h1 ▸ h2, h1⟩)
      · exact Or.inr ⟨h1, Or.inl h2⟩

/-- Helper: full-scan invariant for the conflict detector: a path is a
conflict after the scan iff it was one before, or was seen before and occurs
in at least one book, or occurs in at least two books. -/
theorem conflictScanAux (books : List (List (List Char)))
    (hnd : ∀ b ∈ books, b.Nodup) :
    ∀ sc : List (List Char) × List (List Char), ∀ x,
      (x ∈ (books.foldl (fun sc book => book.foldl conflictStep sc) sc).1 ↔
        x ∈ sc.1 ∨ ∃ b ∈ books, x ∈ b) ∧
      (x ∈ (books.foldl (fun sc book => book.foldl conflictStep sc) sc).2 ↔
        x ∈ sc.2 ∨ (x ∈ sc.1 ∧ 1 ≤ books.countP (fun b => decide (x ∈ b))) ∨
          2 ≤ books.countP (fun b => decide (x ∈ b))) := by
  induction books with
  | nil => intro sc x; simp
  | cons b rest ih =>
    intro sc x
    have hb : b.Nodup := hnd b (List.mem_cons_self _ _)
    have hndr : ∀ b2 ∈ rest, b2.Nodup := fun b2 h => hnd b2 (List.mem_cons_of_mem _ h)
    rw [List.foldl_cons]
    obtain ⟨ih1, ih2⟩ := ih hndr (b.foldl conflictStep sc) x
    constructor
    · rw [ih1, bookFold_seen]
      by_cases hxb : x ∈ b <;> simp [List.countP_cons, hxb]
    · rw [ih2, bookFold_conf b hb, bookFold_seen]
      have hcnt : (b :: rest).countP (fun b2 => decide (x ∈ b2)) =
          rest.countP (fun b2 => decide (x ∈ b2)) + (if x ∈ b then 1 else 0) := by
        rw [List.countP_cons]
        by_cases hxb : x ∈ b <;> simp [hxb]
      rw [hcnt]
      by_cases hxb : x ∈ b
      · simp only [if_pos hxb]
        constructor
        · rintro ((h | ⟨h1, h2⟩) | ⟨h1 | h1, h2⟩ | h)
          · exact Or.inl h
          · exact Or.inr (Or.inl ⟨h2, by omega⟩)
          · exact Or.inr (Or.inl ⟨h1, by omega⟩)
          · exact Or.inr (Or.inr (by omega))
          · exact Or.inr (Or.inr (by omega))
        · rintro (h | ⟨h1, h2⟩ | h)
          · exact Or.inl (Or.inl h)
          · exact Or.inl (Or.inr ⟨hxb, h1⟩)
          · by_cases hc : 2 ≤ rest.countP (fun b2 => decide (x ∈ b2))
            · exact Or.inr (Or.inr hc)
            · exact Or.inr (Or.inl ⟨Or.inr hxb, by omega⟩)
      · simp only [if_neg hxb, Nat.add_zero]
        constructor
        · rintro ((h | ⟨h1, h2⟩) | ⟨h1 | h1, h2⟩ | h)
          · exact Or.inl h
          · exact absurd h1 hxb
          · exact Or.inr (Or.inl ⟨h1, h2⟩)
          · exact absurd h1 hxb
          · exact Or.inr (Or.inr h)
        · rintro (h | ⟨h1, h2⟩ | h)
          · exact Or.inl (Or.inl h)
          · exact Or.inr (Or.inl ⟨Or.inl h1, h2⟩)
          · exact Or.inr (Or.inr h)

/-- Helper: the conflict set of the scan is exactly the set of paths
occurring in at least two books. -/
theorem conflictScan_conflicts (books : List (List (List Char)))
    (hnd : ∀ b ∈ books, b.Nodup) (x : List Char) :
    x ∈ (conflictScan books).2 ↔ 2 ≤ books.countP (fun b => decide (x ∈ b)) := by
  have h := (conflictScanAux books hnd ([], []) x).2
  unfold conflictScan
  rw [h]
  simp

/-- Helper: `takeWhile` keeps a prefix on which the predicate holds. -/
theorem takeWhile_append_all {α : Type} (q : α → Bool) (xs ys : List α)
    (h : ∀ x ∈ xs, q x = true) :
    (xs ++ ys).takeWhile q = xs ++ ys.takeWhile q := by
  induction xs with
  | nil => simp
  | cons a as ih =>
    have ha := h a (List.mem_cons_self _ _)
    simp [List.takeWhile_cons, ha, ih (fun x hx => h x (List.mem_cons_of_mem _ hx))]

/-- Helper: `dropWhile` drops a prefix on which the predicate holds. -/
theorem dropWhile_append_all {α : Type} (q : α → Bool) (xs ys : List α)
    (h : ∀ x ∈ xs, q x = true) :
    (xs ++ ys).dropWhile q = ys.dropWhile q := by
  induction xs with
  | nil => simp
  | cons a as ih =>
    have ha := h a (List.mem_cons_self _ _)
    simp [List.dropWhile_cons, ha, ih (fun x hx => h x (List.mem_cons_of_mem _ hx))]

/-- Helper: `takeWhile` of an all-true list is the list itself. -/
theorem takeWhile_all {α : Type} (q : α → Bool) (l : List α) (h : ∀ x ∈ l, q x = true) :
    l.takeWhile q = l := by
  have := takeWhile_append_all q l [] h
  simpa using this

/-- Helper: `dropWhile` of an all-true list is empty. -/
theorem dropWhile_all {α : Type} (q : α → Bool) (l : List α) (h : ∀ x ∈ l, q x = true) :
    l.dropWhile q = [] := by
  have := dropWhile_append_all q l [] h
  simpa using this

/-- Helper: the first element surviving `dropWhile` fails the predicate. -/
theorem dropWhile_first {α : Type} (q : α → Bool) (l : List α) :
    ∀ y t, l.dropWhile q = y :: t → q y = false := by
  induction l with
  | nil => intro y t h; simp at h
  | cons a as ih =>
    intro y t h
    rw [List.dropWhile_cons] at h
    by_cases ha : q a = true
    · rw [if_pos ha] at h
      exact ih y t h
    · rw [if_neg ha] at h
      obtain ⟨h1, _⟩ := List.cons.inj h
      rw [← h1]
      exact Bool.eq_false_iff.mpr ha

/-- Helper: every character produced by the decimal writer is a digit. -/
theorem natStrAux_chars (f : Nat) :
    ∀ n acc c, c ∈ natStrAux f n acc → c ∈ acc ∨ ∃ m, m < 10 ∧ c = Char.ofNat (48 + m) := by
  induction f with
  | zero => intro n acc c hc; exact Or.inl hc
  | succ f ih =>
    intro n acc c hc
    unfold natStrAux at hc
    by_cases hn : n < 10
    · rw [if_pos hn] at hc
      rcases List.mem_cons.mp hc with h | h
      · exact Or.inr ⟨n, hn, h⟩
      · exact Or.inl h
    · rw [if_neg hn] at hc
      rcases ih (n / 10) _ c hc with h | h
      · rcases List.mem_cons.mp h with h | h
        · exact Or.inr ⟨n % 10, Nat.mod_lt _ (by norm_num), h⟩
        · exact Or.inl h
      · exact Or.inr h

/-- Helper: the `vol{n}_` tag contains no slash. -/
theorem volTag_no_slash (n : Nat) : ∀ c ∈ volTag n, c ≠ '/' := by
  intro c hc
  unfold volTag at hc
  have hv : "vol".toList = ['v', 'o', 'l'] := rfl
  rw [hv] at hc
  rcases List.mem_append.mp hc with h | h
  · rcases List.mem_append.mp h with h | h
    · simp only [List.mem_cons, List.mem_singleton, List.not_mem_nil] at h
      rcases h with h | h | h | h
      · rw [h]; decide
      · rw [h]; decide
      · rw [h]; decide
      · exact absurd h (by simp)
    · rcases natStrAux_chars (n + 1) n [] c h with h2 | ⟨m, hm, h2⟩
      · simp at h2
      · subst h2
        exact (by decide : ∀ m, m < 10 → Char.ofNat (48 + m) ≠ '/') m hm
  · simp only [List.mem_singleton] at h
    rw [h]; decide

/-- Helper: the basename never contains a slash. -/
theorem basenameB_no_slash (p : List Char) : ∀ c ∈ basenameB p, c ≠ '/' := by
  intro c hc
  unfold basenameB at hc
  rw [List.mem_reverse] at hc
  have := List.mem_takeWhile_imp hc
  simpa [bne_iff_ne] using this

/-- Helper: splitting at the last slash reassembles the path. -/
theorem headSlashRaw_append_basename (p : List Char) :
    headSlashRaw p ++ basenameB p = p := by
  unfold headSlashRaw basenameB
  rw [← List.reverse_append, List.takeWhile_append_dropWhile, List.reverse_reverse]

/-- Helper: a nonempty `headSlashRaw` ends in a slash. -/
theorem headSlashRaw_last (p : List Char) (h : headSlashRaw p ≠ []) :
    ∃ q, headSlashRaw p = q ++ ['/'] := by
  unfold headSlashRaw at *
  match hd : p.reverse.dropWhile (fun c => c != '/') with
  | [] => rw [hd] at h; simp at h
  | y :: t =>
    have hy := dropWhile_first _ _ y t hd
    have hy2 : y = '/' := by simpa [bne] using hy
    refine ⟨t.reverse, ?_⟩
    rw [hy2]
    simp

/-- Helper: `dropWhile` returning nothing means the predicate held
everywhere. -/
theorem dropWhile_nil_all {α : Type} (q : α → Bool) (l : List α)
    (h : l.dropWhile q = []) : ∀ x ∈ l, q x = true := by
  induction l with
  | nil => intro x hx; simp at hx
  | cons a as ih =>
    rw [List.dropWhile_cons] at h
    by_cases ha : q a = true
    · rw [if_pos ha] at h
      intro x hx
      rcases List.mem_cons.mp hx with hx | hx
      · rw [hx]; exact ha
      · exact ih h x hx
    · rw [if_neg ha] at h
      simp at h

/-- Helper: `dirnameB` as an explicit function of `headSlashRaw`. -/
theorem dirnameB_eq (p : List Char) :
    dirnameB p =
      (if headSlashRaw p ≠ [] ∧ ¬ ((headSlashRaw p).all (fun c => c == '/')) then
        ((headSlashRaw p).reverse.dropWhile (fun c => c == '/')).reverse
      else headSlashRaw p) := rfl

/-- Helper: a slash-free path is its own basename. -/
theorem basenameB_all_noslash (nn : List Char) (hns : ∀ c ∈ nn, c ≠ '/') :
    basenameB nn = nn := by
  have hrev : ∀ c ∈ nn.reverse, (c != '/') = true := by
    intro c hc
    rw [List.mem_reverse] at hc
    simpa [bne_iff_ne] using hns c hc
  unfold basenameB
  rw [takeWhile_all _ _ hrev, List.reverse_reverse]

/-- Helper: a slash-free path has an empty raw head. -/
theorem headSlashRaw_all_noslash (nn : List Char) (hns : ∀ c ∈ nn, c ≠ '/') :
    headSlashRaw nn = [] := by
  have hrev : ∀ c ∈ nn.reverse, (c != '/') = true := by
    intro c hc
    rw [List.mem_reverse] at hc
    simpa [bne_iff_ne] using hns c hc
  unfold headSlashRaw
  rw [dropWhile_all _ _ hrev]
  rfl

/-- Helper: the basename of a slash-free suffix after a slash. -/
theorem basenameB_append_slash (e nn : List Char) (hns : ∀ c ∈ nn, c ≠ '/') :
    basenameB ((e ++ ['/']) ++ nn) = nn := by
  have hrev : ∀ c ∈ nn.reverse, (c != '/') = true := by
    intro c hc
    rw [List.mem_reverse] at hc
    simpa [bne_iff_ne] using hns c hc
  have hsplit : ((e ++ ['/']) ++ nn).reverse = nn.reverse ++ ('/' :: e.reverse) := by
    simp
  unfold basenameB
  rw [hsplit, takeWhile_append_all _ _ _ hrev]
  simp [List.takeWhile_cons]

/-- Helper: the raw head of a slash-free suffix after a slash. -/
theorem headSlashRaw_append_slash (e nn : List Char) (hns : ∀ c ∈ nn, c ≠ '/') :
    headSlashRaw ((e ++ ['/']) ++ nn) = e ++ ['/'] := by
  have hrev : ∀ c ∈ nn.reverse, (c != '/') = true := by
    intro c hc
    rw [List.mem_reverse] at hc
    simpa [bne_iff_ne] using hns c hc
  have hsplit : ((e ++ ['/']) ++ nn).reverse = nn.reverse ++ ('/' :: e.reverse) := by
    simp
  unfold headSlashRaw
  rw [hsplit, dropWhile_append_all _ _ _ hrev]
  have hdw : (('/' :: e.reverse).dropWhile (fun c => c != '/')) = '/' :: e.reverse := by
    simp [List.dropWhile_cons]
  rw [hdw]
  simp

/-- Helper: `_detect_conflicts`'s renamed path keeps the directory and
prefixes the basename with the `vol{n}_` tag. -/
theorem renameNew_preserves (n : Nat) (p : List Char) :
    dirnameB (renameNew n p) = dirnameB p ∧
    basenameB (renameNew n p) = volTag n ++ basenameB p := by
  have hnoslash : ∀ c ∈ volTag n ++ basenameB p, c ≠ '/' := by
    intro c hc
    rcases List.mem_append.mp hc with h | h
    · exact volTag_no_slash n c h
    · exact basenameB_no_slash p c h
  have hrev : ∀ c ∈ (volTag n ++ basenameB p).reverse, (c != '/') = true := by
    intro c hc
    rw [List.mem_reverse] at hc
    simpa [bne_iff_ne] using hnoslash c hc
  have hvolne : volTag n ≠ [] := by
    unfold volTag
    simp
  have hnnne : volTag n ++ basenameB p ≠ [] := by
    intro h
    exact hvolne (List.append_eq_nil.mp h).1
  have hnntake : (volTag n ++ basenameB p).take 1 ≠ ['/'] := by
    match hnx : volTag n ++ basenameB p with
    | [] => exact absurd hnx hnnne
    | x :: rest =>
      have hx : x ≠ '/' := hnoslash x (by rw [hnx]; exact List.mem_cons_self _ _)
      simp only [List.take_succ_cons, List.take_zero, ne_eq, List.cons.injEq]
      intro hcontra
      exact hx hcontra.1
  by_cases hh : headSlashRaw p = []
  · -- no slash in p at all: the rename is plain concatenation
    have hdp : dirnameB p = [] := by
      rw [dirnameB_eq, hh]
      simp
    have hrn : renameNew n p = volTag n ++ basenameB p := by
      unfold renameNew
      rw [hdp]
      simp
    constructor
    · rw [hrn, dirnameB_eq, headSlashRaw_all_noslash _ hnoslash]
      simp [hdp]
    · rw [hrn, basenameB_all_noslash _ hnoslash]
  · obtain ⟨qq, hq⟩ := headSlashRaw_last p hh
    by_cases hall : ((headSlashRaw p).all (fun c => c == '/')) = true
    · -- all-slash head: dirname is the head itself, join appends directly
      have hdp : dirnameB p = headSlashRaw p := by
        rw [dirnameB_eq]
        simp [hall]
      have hlast : (dirnameB p).getLast? = some '/' := by
        rw [hdp, hq]
        simp
      have hdne : dirnameB p ≠ [] := by rw [hdp]; exact hh
      have hrn : renameNew n p = (qq ++ ['/']) ++ (volTag n ++ basenameB p) := by
        unfold renameNew
        rw [if_pos hdne]
        unfold joinB
        rw [if_neg hnntake, if_pos (Or.inr hlast), hdp, hq]
      constructor
      · rw [hrn, dirnameB_eq, headSlashRaw_append_slash _ _ hnoslash, ← hq,
          ← dirnameB_eq]
      · rw [hrn, basenameB_append_slash _ _ hnoslash]
    · -- head has a non-slash character: dirname is the stripped head
      have hdp : dirnameB p = ((headSlashRaw p).reverse.dropWhile (fun c => c == '/')).reverse := by
        rw [dirnameB_eq]
        simp [hh, hall]
      have hne2 : (headSlashRaw p).reverse.dropWhile (fun c => c == '/') ≠ [] := by
        intro hnil
        apply hall
        rw [List.all_eq_true]
        intro x hx
        exact dropWhile_nil_all _ _ hnil x (List.mem_reverse.mpr hx)
      match hw : (headSlashRaw p).reverse.dropWhile (fun c => c == '/') with
      | [] => exact absurd hw hne2
      | w :: ws =>
        have hwns : (w == '/') = false :=
          dropWhile_first (fun c => c == '/') ((headSlashRaw p).reverse) w ws hw
        have hwne : w ≠ '/' := by simpa using hwns
        have hd : dirnameB p = ws.reverse ++ [w] := by
          rw [hdp, hw]
          simp
        have hdne : dirnameB p ≠ [] := by
          rw [hd]
          simp
        have hdlast : (dirnameB p).getLast? = some w := by
          rw [hd]
          simp
        have hdnotslash : ¬ ((dirnameB p) = [] ∨ (dirnameB p).getLast? = some '/') := by
          rintro (h | h)
          · exact hdne h
          · rw [hdlast] at h
            exact hwne (Option.some.inj h)
        have hrn : renameNew n p = (dirnameB p ++ ['/']) ++ (volTag n ++ basenameB p) := by
          unfold renameNew
          rw [if_pos hdne]
          unfold joinB
          rw [if_neg hnntake, if_neg hdnotslash]
          simp
        constructor
        · rw [hrn, dirnameB_eq, headSlashRaw_append_slash _ _ hnoslash]
          have hne3 : dirnameB p ++ ['/'] ≠ [] := by simp
          have hnotall : ¬ ((dirnameB p ++ ['/']).all (fun c => c == '/')) = true := by
            rw [List.all_eq_true]
            intro hcontra
            have hwmem : w ∈ dirnameB p ++ ['/'] := by
              rw [hd]
              simp
            exact hwne (by simpa using hcontra w hwmem)
          rw [if_pos ⟨hne3, hnotall⟩]
          rw [List.reverse_append]
          have hstep : (['/'].reverse ++ (dirnameB p).reverse).dropWhile (fun c => c == '/') =
              (dirnameB p).reverse.dropWhile (fun c => c == '/') := by
            simp [List.dropWhile_cons]
          rw [hstep]
          have hdrev : (dirnameB p).reverse = w :: ws := by
            rw [hd]
            simp
          rw [hdrev, List.dropWhile_cons, if_neg (by simp [hwns])]
          rw [← hdrev, List.reverse_reverse]
        · rw [hrn, basenameB_append_slash _ _ hnoslash]

/-- Helper: entry `i` of `_detect_conflicts`' result list. -/
theorem detectConflicts_getElem? (books : List (List (List Char))) (i : Nat) :
    (detectConflicts books)[i]? =
      books[i]?.map (fun b =>
        if i = 0 then []
        else b.filterMap (fun fp =>
          if fp ∈ (conflictScan books).2 then some (fp, renameNew (i + 1) fp) else none)) := by
  unfold detectConflicts
  rw [List.getElem?_map, List.getElem?_enum]
  rcases books[i]? with _ | b <;> simp

/-- C1.  `_detect_conflicts` (merge_epub.py:194-227) on N ≥ 2 duplicate-free
bookpath sets: the first source's rename map is empty; for every later
source at 0-indexed position i ≥ 1, a bookpath it owns is a key of its map
iff that bookpath occurs in at least two sources' sets; and every renamed
value preserves the directory and prefixes the basename with `vol{i+1}_`. -/
theorem detect_conflicts_spec (books : List (List (List Char)))
    (h2 : 2 ≤ books.length) (hnd : ∀ b ∈ books, b.Nodup) :
    (detectConflicts books).getD 0 [] = [] ∧
    (∀ i, 1 ≤ i → i < books.length → ∀ p,
      ((∃ v, (p, v) ∈ (detectConflicts books).getD i []) ↔
        (p ∈ books.getD i [] ∧ 2 ≤ books.countP (fun b => decide (p ∈ b))))) ∧
    (∀ i p v, 1 ≤ i → (p, v) ∈ (detectConflicts books).getD i [] →
      dirnameB v = dirnameB p ∧ basenameB v = volTag (i + 1) ++ basenameB p) := by
  refine ⟨?_, ?_, ?_⟩
  · rw [List.getD_eq_getElem?_getD, detectConflicts_getElem?]
    match books, h2 with
    | b0 :: rest, _ => simp
  · intro i h1 hlt p
    have hne : i ≠ 0 := by omega
    have hbi : books[i]? = some (books.getD i []) := by
      rw [List.getD_eq_getElem?_getD]
      rcases hx : books[i]? with _ | b
      · rw [List.getElem?_eq_none_iff] at hx
        omega
      · rfl
    rw [List.getD_eq_getElem?_getD, detectConflicts_getElem?, hbi]
    simp only [Option.map_some', Option.getD_some, if_neg hne]
    constructor
    · rintro ⟨v, hv⟩
      rw [List.mem_filterMap] at hv
      obtain ⟨fp, hfp, hsome⟩ := hv
      by_cases hc : fp ∈ (conflictScan books).2
      · rw [if_pos hc] at hsome
        injection hsome with hpair
        have hfpp : fp = p := congrArg Prod.fst hpair
        rw [hfpp] at hfp hc
        exact ⟨hfp, (conflictScan_conflicts books hnd p).mp hc⟩
      · rw [if_neg hc] at hsome
        exact absurd hsome (by simp)
    · rintro ⟨hp, hcnt⟩
      refine ⟨renameNew (i + 1) p, ?_⟩
      rw [List.mem_filterMap]
      exact ⟨p, hp, by rw [if_pos ((conflictScan_conflicts books hnd p).mpr hcnt)]⟩
  · intro i p v h1 hmem
    rw [List.getD_eq_getElem?_getD, detectConflicts_getElem?] at hmem
    rcases hx : books[i]? with _ | b
    · rw [hx] at hmem
      simp at hmem
    · rw [hx] at hmem
      have hne : i ≠ 0 := by omega
      simp only [Option.map_some', Option.getD_some, if_neg hne] at hmem
      rw [List.mem_filterMap] at hmem
      obtain ⟨fp, hfp, hsome⟩ := hmem
      by_cases hc : fp ∈ (conflictScan books).2
      · rw [if_pos hc] at hsome
        injection hsome with hpair
        have hfpp : fp = p := congrArg Prod.fst hpair
        have hvv : renameNew (i + 1) fp = v := congrArg Prod.snd hpair
        rw [← hvv, hfpp]
        exact renameNew_preserves (i + 1) p
      · rw [if_neg hc] at hsome
        exact absurd hsome (by simp)

/-- Witness for C1 at two concrete sources sharing `OEBPS/s.css`: the shared
path is a key of the second map, the first map is empty, and the renamed
value is `OEBPS/vol2_s.css`. -/
theorem detect_conflicts_spec_witness :
    (detectConflicts [["OEBPS/a.xhtml".toList, "OEBPS/s.css".toList],
      ["OEBPS/s.css".toList, "b.x".toList]]).getD 0 [] = [] ∧
    (∃ v, ("OEBPS/s.css".toList, v) ∈
      (detectConflicts [["OEBPS/a.xhtml".toList, "OEBPS/s.css".toList],
        ["OEBPS/s.css".toList, "b.x".toList]]).getD 1 []) := by
  have h := detect_conflicts_spec
    [["OEBPS/a.xhtml".toList, "OEBPS/s.css".toList],
     ["OEBPS/s.css".toList, "b.x".toList]] (by decide) (by decide)
  exact ⟨h.1, (h.2.1 1 (by decide) (by decide) "OEBPS/s.css".toList).mpr
    ⟨by decide, by decide⟩⟩

/-- C7 counterexample: a package whose manifest declares an XHTML content
document that the spine never references, with no nav item and no NCX id,
yields an empty target list from `list_split_targets` although the package
contains an XHTML content document. -/
theorem list_split_targets_empty_counterexample :
    listSplitTargetsModel
      [⟨"a".toList, "x.xhtml".toList, "application/xhtml+xml".toList, []⟩]
      [] [] [] [] [] = [] ∧
    manifestHasXhtmlDoc
      [⟨"a".toList, "x.xhtml".toList, "application/xhtml+xml".toList, []⟩] = true := by
  constructor
  · decide
  · decide

/-- C7 amended.  If the spine references (by manifest id) at least one XHTML
content document, `list_split_targets` (split_epub.py:143-188) returns a
non-empty list: the nav/NCX stages either return targets or fall through to
`_spine_as_targets`, which is then non-empty. -/
theorem list_split_targets_nonempty (manifest : List MItem) (spine : List SItem)
    (opfDir tocId : List Char) (navParsed ncxParsed : List Target)
    (h : ∃ s ∈ spine, ∃ it, manifestLookup manifest s.idref = some it ∧
      isContentDocB it.mediaType it.href = true) :
    listSplitTargetsModel manifest spine opfDir tocId navParsed ncxParsed ≠ [] := by
  intro hnil
  obtain ⟨s, hs, it, hit, hcd⟩ := h
  have hmem : (⟨basenameB it.href, 1, normJoinDir opfDir it.href⟩ : Target) ∈
      spineAsTargets manifest spine opfDir := by
    unfold spineAsTargets
    rw [List.mem_filterMap]
    exact ⟨s, hs, by rw [hit]; simp [hcd]⟩
  have hne : spineAsTargets manifest spine opfDir ≠ [] := List.ne_nil_of_mem hmem
  unfold listSplitTargetsModel effectiveTocTargets at hnil
  by_cases hcase : navNcxTargets manifest tocId navParsed ncxParsed = []
  · rw [if_pos hcase] at hnil
    exact hne hnil
  · rw [if_neg hcase] at hnil
    exact hcase hnil

/-- Witness for the amended C7: a spine referencing one XHTML chapter, no
TOC of any kind, yields a non-empty target list. -/
theorem list_split_targets_nonempty_witness :
    listSplitTargetsModel
      [⟨"a".toList, "x.xhtml".toList, "application/xhtml+xml".toList, []⟩]
      [⟨"a".toList, [], []⟩] [] [] [] [] ≠ [] :=
  list_split_targets_nonempty _ _ _ _ _ _
    ⟨⟨"a".toList, [], []⟩, by decide,
     ⟨"a".toList, "x.xhtml".toList, "application/xhtml+xml".toList, []⟩,
     by decide, by decide⟩

/-- C8 counterexample: a source manifest item whose id is literally
`merged-nav` collides with the generated nav item's id, which `_do_merge`
(merge_epub.py:643-646) appends without a uniqueness check. -/
theorem merged_ids_counterexample :
    mergedManifestIds
      [[⟨"merged-nav".toList, "a.xhtml".toList, "application/xhtml+xml".toList, []⟩],
       [⟨"b".toList, "b.xhtml".toList, "application/xhtml+xml".toList, []⟩]] =
      some ["merged-nav".toList, "b".toList, "merged-nav".toList] ∧
    ¬ (["merged-nav".toList, "b".toList, "merged-nav".toList] : List (List Char)).Nodup := by
  constructor
  · decide
  · decide

/-- Helper: a successfully assigned id is fresh with respect to `used`. -/
theorem assignId_fresh (used : List (List Char)) (volN : Nat) (itemId newId : List Char)
    (h : assignId used volN itemId = some newId) : newId ∉ used := by
  unfold assignId at h
  by_cases h1 : itemId ∉ used
  · rw [if_pos h1] at h
    injection h with h
    rw [← h]; exact h1
  · rw [if_neg h1] at h
    by_cases hc2 : volTag volN ++ itemId ∉ used
    · rw [if_pos hc2] at h
      injection h with h
      rw [← h]; exact hc2
    · rw [if_neg hc2] at h
      by_cases hc3 : volTag volN ++ itemId ++ ['_'] ++ natStr used.length ∉ used
      · rw [if_pos hc3] at h
        injection h with h
        rw [← h]; exact hc3
      · rw [if_neg hc3] at h
        exact absurd h (by simp)

/-- Helper: per-volume id assignment yields fresh, duplicate-free ids and
only grows the used set. -/
theorem mergeVolIds_inv (volN : Nat) (items : List MItem) :
    ∀ used ids usedOut, mergeVolIds volN items used = some (ids, usedOut) →
      ids.Nodup ∧ (∀ x ∈ ids, x ∉ used) ∧ (∀ x ∈ ids, x ∈ usedOut) ∧
        (∀ x ∈ used, x ∈ usedOut) := by
  induction items with
  | nil =>
    intro used ids usedOut h
    unfold mergeVolIds at h
    injection h with h
    injection h with hids hused
    rw [← hids, ← hused]
    exact ⟨List.nodup_nil, by simp, by simp, fun x hx => hx⟩
  | cons it rest ih =>
    intro used ids usedOut h
    unfold mergeVolIds at h
    by_cases hskip : skipItem it = true
    · rw [if_pos hskip] at h
      exact ih used ids usedOut h
    · rw [if_neg hskip] at h
      split at h
      · exact absurd h (by simp)
      · next newId ha =>
        split at h
        · exact absurd h (by simp)
        · next ids2 used2 hr =>
          injection h with h
          injection h with hids hused
          obtain ⟨hnd2, hfresh2, hin2, hgrow2⟩ := ih (used ++ [newId]) ids2 used2 hr
          have hnew : newId ∉ used := assignId_fresh used volN it.id newId ha
          subst hids
          subst hused
          refine ⟨?_, ?_, ?_, ?_⟩
          · refine List.nodup_cons.mpr ⟨?_, hnd2⟩
            intro hmem
            exact hfresh2 newId hmem (by simp)
          · intro x hx
            rcases List.mem_cons.mp hx with hx | hx
            · rw [hx]; exact hnew
            · intro hxu
              exact hfresh2 x hx (by simp [hxu])
          · intro x hx
            rcases List.mem_cons.mp hx with hx | hx
            · rw [hx]
              exact hgrow2 newId (by simp)
            · exact hin2 x hx
          · intro x hx
            exact hgrow2 x (by simp [hx])

/-- Helper: the cross-volume id assignment yields fresh, duplicate-free ids. -/
theorem mergeAllIds_inv (sources : List (List MItem)) :
    ∀ volIdx used ids usedOut, mergeAllIds sources volIdx used = some (ids, usedOut) →
      ids.Nodup ∧ (∀ x ∈ ids, x ∉ used) ∧ (∀ x ∈ ids, x ∈ usedOut) ∧
        (∀ x ∈ used, x ∈ usedOut) := by
  induction sources with
  | nil =>
    intro volIdx used ids usedOut h
    unfold mergeAllIds at h
    injection h with h
    injection h with hids hused
    rw [← hids, ← hused]
    exact ⟨List.nodup_nil, by simp, by simp, fun x hx => hx⟩
  | cons items rest ih =>
    intro volIdx used ids usedOut h
    unfold mergeAllIds at h
    split at h
    · exact absurd h (by simp)
    · next ids1 used1 h1 =>
      split at h
      · exact absurd h (by simp)
      · next ids2 used2 h2 =>
        injection h with h
        injection h with hids hused
        obtain ⟨hnd1, hfresh1, hin1, hgrow1⟩ := mergeVolIds_inv _ _ _ _ _ h1
        obtain ⟨hnd2, hfresh2, hin2, hgrow2⟩ := ih _ _ _ _ h2
        subst hids
        subst hused
        refine ⟨?_, ?_, ?_, ?_⟩
        · refine List.Nodup.append hnd1 hnd2 ?_
          intro x hx1 hx2
          exact hfresh2 x hx2 (hin1 x hx1)
        · intro x hx
          rcases List.mem_append.mp hx with hx | hx
          · exact hfresh1 x hx
          · intro hxu
            exact hfresh2 x hx (hgrow1 x hxu)
        · intro x hx
          rcases List.mem_append.mp hx with hx | hx
          · exact hgrow2 _ (hin1 x hx)
          · exact hin2 x hx
        · intro x hx
          exact hgrow2 x (hgrow1 x hx)

/-- C8 amended.  For every merge whose id assignment terminates, the
carried-over manifest ids are pairwise distinct, and the whole output id
list (generated nav id included) is pairwise distinct provided no
carried-over item was assigned the literal id `merged-nav` — the one case
the code does not guard (merge_epub.py:643-646). -/
theorem merged_ids_nodup (sources : List (List MItem)) (ids : List (List Char))
    (h2 : 2 ≤ sources.length)
    (hres : mergedManifestIds sources = some ids)
    (hnav : mergedNavId ∉ ids.dropLast) :
    ids.dropLast.Nodup ∧ ids.Nodup := by
  unfold mergedManifestIds at hres
  split at hres
  · exact absurd hres (by simp)
  · next allIds usedOut ha =>
    injection hres with hres
    obtain ⟨hnd, _, _, _⟩ := mergeAllIds_inv sources 0 [] allIds usedOut ha
    have hdl : ids.dropLast = allIds := by
      rw [← hres]
      exact List.dropLast_concat ..
    constructor
    · rw [hdl]; exact hnd
    · rw [← hres]
      refine List.Nodup.append hnd (List.nodup_singleton _) ?_
      intro x hx1 hx2
      rw [List.mem_singleton] at hx2
      rw [hx2] at hx1
      exact hnav (hdl ▸ hx1)

/-- Witness for the amended C8: two sources both using id `x`; the second
gets `vol2_x` and the output id list is duplicate-free. -/
theorem merged_ids_nodup_witness :
    (["x".toList, "vol2_x".toList, "merged-nav".toList] : List (List Char)).dropLast.Nodup ∧
    (["x".toList, "vol2_x".toList, "merged-nav".toList] : List (List Char)).Nodup :=
  merged_ids_nodup
    [[⟨"x".toList, "a.xhtml".toList, "application/xhtml+xml".toList, []⟩],
     [⟨"x".toList, "b.xhtml".toList, "application/xhtml+xml".toList, []⟩]]
    ["x".toList, "vol2_x".toList, "merged-nav".toList]
    (by decide) (by decide) (by decide)

/-- Helper: the spine bookpath list is duplicate-free by construction. -/
theorem spineBookpathsAux_nodup (manifest : List MItem) (opfDir : List Char)
    (spine : List SItem) :
    ∀ acc : List (List Char), acc.Nodup → (spineBookpathsAux manifest opfDir spine acc).Nodup := by
  induction spine with
  | nil => intro acc h; exact h
  | cons s rest ih =>
    intro acc hacc
    unfold spineBookpathsAux
    split
    · exact ih acc hacc
    · next it hm =>
      by_cases hcd : isContentDocB it.mediaType it.href = true
      · rw [if_pos hcd]
        apply ih
        by_cases hbp : normJoinDir opfDir it.href ∈ acc
        · rw [if_pos hbp]; exact hacc
        · rw [if_neg hbp]
          refine List.Nodup.append hacc (List.nodup_singleton _) ?_
          intro x hx hx2
          rw [List.mem_singleton] at hx2
          exact hbp (hx2 ▸ hx)
      · rw [if_neg hcd]
        exact ih acc hacc

/-- `spine_bookpaths` is duplicate-free. -/
theorem spineBookpathsOf_nodup (manifest : List MItem) (spine : List SItem)
    (opfDir : List Char) : (spineBookpathsOf manifest spine opfDir).Nodup :=
  spineBookpathsAux_nodup manifest opfDir spine [] List.nodup_nil

/-- Helper: members of `range(a, b)` lie in `[a, b)`. -/
theorem mem_idxList (a b i : Nat) (h : i ∈ idxList a b) : a ≤ i ∧ i < b := by
  unfold idxList at h
  rw [List.mem_map] at h
  obtain ⟨m, hm, hi⟩ := h
  rw [List.mem_range] at hm
  omega

/-- Helper: every content doc a segment claims comes from a spine position
inside the segment's index list. -/
theorem segContentAux_sub (sbp : List (List Char)) (idxs : List Nat) :
    ∀ assigned bp, bp ∈ (segContentAux sbp assigned idxs).2 →
      ∃ i ∈ idxs, sbp.getD i [] = bp := by
  induction idxs with
  | nil => intro assigned bp h; simp [segContentAux] at h
  | cons i rest ih =>
    intro assigned bp h
    unfold segContentAux at h
    by_cases hbp : sbp.getD i [] ∈ assigned
    · rw [if_pos hbp] at h
      obtain ⟨j, hj, hjeq⟩ := ih assigned bp h
      exact ⟨j, List.mem_cons_of_mem _ hj, hjeq⟩
    · rw [if_neg hbp] at h
      rcases List.mem_cons.mp h with h | h
      · exact ⟨i, List.mem_cons_self _ _, h.symm⟩
      · obtain ⟨j, hj, hjeq⟩ := ih _ bp h
        exact ⟨j, List.mem_cons_of_mem _ hj, hjeq⟩

/-- Helper: every content doc of every built segment comes from a spine
position inside one of the ranges. -/
theorem buildSegments_contentDocs (sbp : List (List Char)) (basename : List Char)
    (collect : List (List Char) → List (List Char)) (navPath ncxPath : Option (List Char))
    (ranges : List (Int × Int)) :
    ∀ segIdx assigned seg,
      seg ∈ buildSegments sbp basename collect navPath ncxPath ranges segIdx assigned →
      ∀ bp ∈ seg.contentDocs,
        ∃ r ∈ ranges, ∃ i : Nat, r.1.toNat ≤ i ∧ i < r.2.toNat ∧ sbp.getD i [] = bp := by
  induction ranges with
  | nil => intro segIdx assigned seg h; simp [buildSegments] at h
  | cons r rest ih =>
    intro segIdx assigned seg h
    unfold buildSegments at h
    by_cases hni : (segContentAux sbp assigned (idxList r.1.toNat r.2.toNat)).2 = []
    · rw [if_pos hni] at h
      intro bp hbp
      obtain ⟨r2, hr2, hrest⟩ := ih _ _ seg h bp hbp
      exact ⟨r2, List.mem_cons_of_mem _ hr2, hrest⟩
    · rw [if_neg hni] at h
      rcases List.mem_cons.mp h with h | h
      · intro bp hbp
        rw [h] at hbp
        simp only at hbp
        obtain ⟨i, hi, hieq⟩ := segContentAux_sub sbp _ _ bp hbp
        obtain ⟨hi1, hi2⟩ := mem_idxList _ _ _ hi
        exact ⟨r, List.mem_cons_self _ _, i, hi1, hi2, hieq⟩
      · intro bp hbp
        obtain ⟨r2, hr2, hrest⟩ := ih _ _ seg h bp hbp
        exact ⟨r2, List.mem_cons_of_mem _ hr2, hrest⟩

/-- Helper: every target spine index is `-1` or a valid spine position. -/
theorem targetSpineIndices_bound (sbp : List (List Char)) (targets : List Target) :
    ∀ v ∈ targetSpineIndices sbp targets, v = -1 ∨ (0 ≤ v ∧ v.toNat < sbp.length) := by
  intro v hv
  unfold targetSpineIndices at hv
  rw [List.mem_map] at hv
  obtain ⟨t, ht, hveq⟩ := hv
  by_cases hmem : t.href ∈ sbp
  · rw [if_pos hmem] at hveq
    right
    constructor
    · rw [← hveq]; exact Int.ofNat_nonneg _
    · have hlt : @List.indexOf (List Char) instBEqOfDecidableEq t.href sbp < sbp.length :=
        List.indexOf_lt_length.mpr hmem
      rw [← hveq]
      simpa using hlt
  · rw [if_neg hmem] at hveq
    left
    exact hveq.symm

/-- Helper: resolved segment ends never exceed the spine length. -/
theorem segmentRanges_end_le (tsi : List Int) (sbpLen : Nat)
    (hb : ∀ v ∈ tsi, v = -1 ∨ (0 ≤ v ∧ v.toNat < sbpLen)) :
    ∀ pts, ∀ r ∈ segmentRangesAux tsi sbpLen pts, r.2.toNat ≤ sbpLen := by
  have hscan : ∀ pt : Nat, (scanEnd tsi pt sbpLen).toNat ≤ sbpLen := by
    intro pt
    unfold scanEnd
    rcases hf : (tsi.drop pt).find? (fun x => decide (0 ≤ x)) with _ | v
    · simp
    · have hvmem : v ∈ tsi := List.mem_of_mem_drop (List.mem_of_find?_eq_some hf)
      have hvpos : (0 ≤ v) := by
        have := List.find?_some hf
        simpa using this
      rcases hb v hvmem with h | ⟨_, h⟩
      · omega
      · simp only [Option.getD_some]
        omega
  intro pts
  induction pts with
  | nil => intro r hr; simp [segmentRangesAux] at hr
  | cons pt rest ih =>
    intro r hr
    match rest, hr with
    | [], hr =>
      unfold segmentRangesAux at hr
      rw [List.mem_singleton] at hr
      rw [hr]
      simp
    | pt2 :: rest2, hr =>
      unfold segmentRangesAux at hr
      rcases List.mem_cons.mp hr with hr | hr
      · rw [hr]
        exact hscan pt2.toNat
      · exact ih r hr

/-- C9 counterexample: with TOC targets out of spine order (first target at
spine position 2, second at 0), the smallest split point resolves to spine
position 2, yet the content document at position 0 is assigned to a
segment: spine content before the first split point is not always dropped. -/
theorem split_before_first_counterexample :
    ((splitRangesOf
      [⟨"a".toList, "a.xhtml".toList, "application/xhtml+xml".toList, []⟩,
       ⟨"b".toList, "b.xhtml".toList, "application/xhtml+xml".toList, []⟩,
       ⟨"c".toList, "c.xhtml".toList, "application/xhtml+xml".toList, []⟩,
       ⟨"n".toList, "nav.xhtml".toList, "application/xhtml+xml".toList, "nav".toList⟩]
      [⟨"a".toList, [], []⟩, ⟨"b".toList, [], []⟩, ⟨"c".toList, [], []⟩]
      [] [] [⟨"t0".toList, 1, "c.xhtml".toList⟩, ⟨"t1".toList, 1, "a.xhtml".toList⟩] []
      [0, 1]).headD (0, 0)).1.toNat = 2 ∧
    (spineBookpathsOf
      [⟨"a".toList, "a.xhtml".toList, "application/xhtml+xml".toList, []⟩,
       ⟨"b".toList, "b.xhtml".toList, "application/xhtml+xml".toList, []⟩,
       ⟨"c".toList, "c.xhtml".toList, "application/xhtml+xml".toList, []⟩,
       ⟨"n".toList, "nav.xhtml".toList, "application/xhtml+xml".toList, "nav".toList⟩]
      [⟨"a".toList, [], []⟩, ⟨"b".toList, [], []⟩, ⟨"c".toList, [], []⟩] []).getD 0 [] =
      "a.xhtml".toList ∧
    ∃ seg ∈ (doSplitModel
      [⟨"a".toList, "a.xhtml".toList, "application/xhtml+xml".toList, []⟩,
       ⟨"b".toList, "b.xhtml".toList, "application/xhtml+xml".toList, []⟩,
       ⟨"c".toList, "c.xhtml".toList, "application/xhtml+xml".toList, []⟩,
       ⟨"n".toList, "nav.xhtml".toList, "application/xhtml+xml".toList, "nav".toList⟩]
      [⟨"a".toList, [], []⟩, ⟨"b".toList, [], []⟩, ⟨"c".toList, [], []⟩]
      [] [] "book".toList
      [⟨"t0".toList, 1, "c.xhtml".toList⟩, ⟨"t1".toList, 1, "a.xhtml".toList⟩] []
      (fun _ => []) [0, 1]).2, "a.xhtml".toList ∈ seg.contentDocs := by
  refine ⟨by decide, by decide, by decide⟩

/-- C9 amended.  In split mode, with `k` the spine position the smallest
split point resolves to (forward-scan fallback and zero default included),
spine content documents at positions strictly before `k` are assigned to no
segment — provided every segment's resolved start position is at least `k`
(which holds whenever the TOC targets map to nondecreasing spine
positions; split_epub.py:548-600). -/
theorem split_no_content_before_first_point
    (manifest : List MItem) (spine : List SItem) (opfDir tocId basename : List Char)
    (navParsed ncxParsed : List Target) (collect : List (List Char) → List (List Char))
    (splitPoints : List Int) (j : Nat)
    (hmono : ∀ r ∈ splitRangesOf manifest spine opfDir tocId navParsed ncxParsed splitPoints,
      ((splitRangesOf manifest spine opfDir tocId navParsed ncxParsed
        splitPoints).headD (0, 0)).1.toNat ≤ r.1.toNat)
    (hj : j < ((splitRangesOf manifest spine opfDir tocId navParsed ncxParsed
      splitPoints).headD (0, 0)).1.toNat) :
    ∀ seg ∈ (doSplitModel manifest spine opfDir tocId basename navParsed ncxParsed collect
      splitPoints).2,
      (spineBookpathsOf manifest spine opfDir).getD j [] ∉ seg.contentDocs := by
  intro seg hseg hmem
  simp only [doSplitModel] at hseg
  by_cases hempty : effectiveTocTargets manifest spine opfDir tocId navParsed ncxParsed = []
  · rw [if_pos hempty] at hseg
    simp at hseg
  · rw [if_neg hempty] at hseg
    by_cases hany : ((sortedPointsOf splitPoints).any fun pt =>
        decide (pt < 0) ||
        decide (((effectiveTocTargets manifest spine opfDir tocId navParsed
          ncxParsed).length : Int) ≤ pt)) = true
    · rw [if_pos hany] at hseg
      simp at hseg
    · rw [if_neg hany] at hseg
      obtain ⟨r, hr, i, hi1, hi2, hieq⟩ :=
        buildSegments_contentDocs _ _ _ _ _ _ _ _ seg hseg _ hmem
      have hrsplit : r ∈ splitRangesOf manifest spine opfDir tocId navParsed ncxParsed
          splitPoints := by
        unfold splitRangesOf
        exact hr
      have hk := hmono r hrsplit
      have hle := segmentRanges_end_le
        (targetSpineIndices (spineBookpathsOf manifest spine opfDir)
          (effectiveTocTargets manifest spine opfDir tocId navParsed ncxParsed))
        (spineBookpathsOf manifest spine opfDir).length
        (targetSpineIndices_bound _ _) (sortedPointsOf splitPoints) r hr
      have hnd := spineBookpathsOf_nodup manifest spine opfDir
      have hjlen : j < (spineBookpathsOf manifest spine opfDir).length := by omega
      have hilen : i < (spineBookpathsOf manifest spine opfDir).length := by omega
      rw [List.getD_eq_getElem _ _ hjlen] at hieq
      rw [List.getD_eq_getElem _ _ hilen] at hieq
      have := (List.Nodup.getElem_inj_iff hnd).mp hieq
      omega

/-- Witness for the amended C9: three chapters, spine-fallback TOC, split
points 1 and 2; the chapter at spine position 0 (before the first split
point, which resolves to position 1) lands in no segment. -/
theorem split_no_content_before_first_point_witness :
    ((doSplitModel
      [⟨"a".toList, "a.xhtml".toList, "application/xhtml+xml".toList, []⟩,
       ⟨"b".toList, "b.xhtml".toList, "application/xhtml+xml".toList, []⟩,
       ⟨"c".toList, "c.xhtml".toList, "application/xhtml+xml".toList, []⟩]
      [⟨"a".toList, [], []⟩, ⟨"b".toList, [], []⟩, ⟨"c".toList, [], []⟩]
      [] [] "book".toList [] [] (fun _ => []) [1, 2]).2).all
      (fun seg => decide ((spineBookpathsOf
        [⟨"a".toList, "a.xhtml".toList, "application/xhtml+xml".toList, []⟩,
         ⟨"b".toList, "b.xhtml".toList, "application/xhtml+xml".toList, []⟩,
         ⟨"c".toList, "c.xhtml".toList, "application/xhtml+xml".toList, []⟩]
        [⟨"a".toList, [], []⟩, ⟨"b".toList, [], []⟩, ⟨"c".toList, [], []⟩] []).getD 0 [] ∉
        seg.contentDocs)) = true := by
  rw [List.all_eq_true]
  intro seg hseg
  exact decide_eq_true
    (split_no_content_before_first_point
      [⟨"a".toList, "a.xhtml".toList, "application/xhtml+xml".toList, []⟩,
       ⟨"b".toList, "b.xhtml".toList, "application/xhtml+xml".toList, []⟩,
       ⟨"c".toList, "c.xhtml".toList, "application/xhtml+xml".toList, []⟩]
      [⟨"a".toList, [], []⟩, ⟨"b".toList, [], []⟩, ⟨"c".toList, [], []⟩]
      [] [] "book".toList [] [] (fun _ => []) [1, 2] 0 (by decide) (by decide) seg hseg)

/-- Helper: splitting never yields an empty piece list. -/
theorem splitSlash_ne_nil (p : List Char) : splitSlash p ≠ [] := by
  match p with
  | [] => simp [splitSlash]
  | c :: rest =>
    unfold splitSlash
    by_cases hc : c = '/'
    · simp [hc]
    · rw [if_neg hc]
      match splitSlash rest with
      | [] => simp
      | s :: ss => simp

/-- Helper: equation for splitting at a leading slash. -/
theorem splitSlash_cons_slash (rest : List Char) :
    splitSlash ('/' :: rest) = [] :: splitSlash rest := by
  rfl

/-- Helper: equation for splitting at a leading non-slash character. -/
theorem splitSlash_cons_ne (c : Char) (rest : List Char) (hc : ¬ c = '/')
    (s : List Char) (ss : List (List Char)) (hs : splitSlash rest = s :: ss) :
    splitSlash (c :: rest) = (c :: s) :: ss := by
  conv_lhs => rw [splitSlash]
  rw [if_neg hc, hs]

/-- Helper: splitting distributes over a slash. -/
theorem splitSlash_append_slash (a b : List Char) :
    splitSlash (a ++ '/' :: b) = splitSlash a ++ splitSlash b := by
  induction a with
  | nil =>
    show splitSlash ('/' :: b) = splitSlash [] ++ splitSlash b
    rw [splitSlash_cons_slash]
    rfl
  | cons c rest ih =>
    show splitSlash (c :: (rest ++ '/' :: b)) = splitSlash (c :: rest) ++ splitSlash b
    by_cases hc : c = '/'
    · subst hc
      rw [splitSlash_cons_slash, splitSlash_cons_slash, ih]
      rfl
    · match hs : splitSlash rest with
      | [] => exact absurd hs (splitSlash_ne_nil rest)
      | s :: ss =>
        have hinner : splitSlash (rest ++ '/' :: b) = s :: (ss ++ splitSlash b) := by
          rw [ih, hs]
          rfl
        rw [splitSlash_cons_ne c _ hc _ _ hinner, splitSlash_cons_ne c _ hc _ _ hs]
        rfl

/-- Helper: a slash-free string is a single piece. -/
theorem splitSlash_no_slash (s : List Char) (h : ∀ c ∈ s, c ≠ '/') :
    splitSlash s = [s] := by
  induction s with
  | nil => rfl
  | cons c rest ih =>
    exact splitSlash_cons_ne c rest (h c (List.mem_cons_self _ _)) rest []
      (ih (fun x hx => h x (List.mem_cons_of_mem _ hx)))

/-- Helper: joining the split pieces recovers the path. -/
theorem joinSegs_splitSlash (p : List Char) : joinSegs (splitSlash p) = p := by
  induction p with
  | nil => rfl
  | cons c rest ih =>
    by_cases hc : c = '/'
    · subst hc
      rw [splitSlash_cons_slash]
      match hs : splitSlash rest with
      | [] => exact absurd hs (splitSlash_ne_nil rest)
      | s :: ss =>
        rw [hs] at ih
        rw [joinSegs, List.nil_append, ih]
    · match hs : splitSlash rest with
      | [] => exact absurd hs (splitSlash_ne_nil rest)
      | s :: ss =>
        rw [splitSlash_cons_ne c rest hc s ss hs]
        rw [hs] at ih
        match ss, ih with
        | [], ih =>
          rw [joinSegs] at ih
          rw [joinSegs, ih]
        | s2 :: ss2, ih =>
          rw [joinSegs] at ih
          rw [joinSegs, List.cons_append, ih]

/-- Helper: splitting a join of nonempty slash-free pieces recovers them. -/
theorem splitSlash_joinSegs (L : List (List Char)) (hL : L ≠ [])
    (h : ∀ s ∈ L, s ≠ [] ∧ ∀ c ∈ s, c ≠ '/') :
    splitSlash (joinSegs L) = L := by
  induction L with
  | nil => exact absurd rfl hL
  | cons s rest ih =>
    match rest with
    | [] =>
      rw [joinSegs]
      exact splitSlash_no_slash s (h s (List.mem_cons_self _ _)).2
    | s2 :: rest2 =>
      rw [joinSegs, splitSlash_append_slash,
        splitSlash_no_slash s (h s (List.mem_cons_self _ _)).2,
        ih (by simp) (fun x hx => h x (List.mem_cons_of_mem _ hx))]
      rfl

/-- Helper: characters of split pieces come from the path. -/
theorem mem_splitSlash_mem (p : List Char) :
    ∀ s ∈ splitSlash p, ∀ c ∈ s, c ∈ p := by
  induction p with
  | nil =>
    intro s hs c hc
    unfold splitSlash at hs
    rw [List.mem_singleton] at hs
    rw [hs] at hc
    simp at hc
  | cons d rest ih =>
    intro s hs c hc
    unfold splitSlash at hs
    by_cases hd : d = '/'
    · rw [if_pos hd] at hs
      rcases List.mem_cons.mp hs with hs | hs
      · rw [hs] at hc; simp at hc
      · exact List.mem_cons_of_mem _ (ih s hs c hc)
    · rw [if_neg hd] at hs
      match hsp : splitSlash rest with
      | [] => exact absurd hsp (splitSlash_ne_nil rest)
      | s0 :: ss0 =>
        rw [hsp] at hs
        rcases List.mem_cons.mp hs with hs | hs
        · rw [hs] at hc
          rcases List.mem_cons.mp hc with hc | hc
          · rw [hc]; exact List.mem_cons_self _ _
          · refine List.mem_cons_of_mem _ (ih s0 ?_ c hc)
            rw [hsp]
            exact List.mem_cons_self _ _
        · exact List.mem_cons_of_mem _ (ih s (by rw [hsp]; exact List.mem_cons_of_mem _ hs) c hc)

/-- Helper: split pieces contain no slash. -/
theorem splitSlash_seg_no_slash (p : List Char) :
    ∀ s ∈ splitSlash p, ∀ c ∈ s, c ≠ '/' := by
  induction p with
  | nil =>
    intro s hs c hc
    unfold splitSlash at hs
    rw [List.mem_singleton] at hs
    rw [hs] at hc
    simp at hc
  | cons d rest ih =>
    intro s hs c hc
    unfold splitSlash at hs
    by_cases hd : d = '/'
    · rw [if_pos hd] at hs
      rcases List.mem_cons.mp hs with hs | hs
      · rw [hs] at hc; simp at hc
      · exact ih s hs c hc
    · rw [if_neg hd] at hs
      match hsp : splitSlash rest with
      | [] => exact absurd hsp (splitSlash_ne_nil rest)
      | s0 :: ss0 =>
        rw [hsp] at hs
        rcases List.mem_cons.mp hs with hs | hs
        · rw [hs] at hc
          rcases List.mem_cons.mp hc with hc | hc
          · rw [hc]; exact hd
          · exact ih s0 (by rw [hsp]; exact List.mem_cons_self _ _) c hc
        · exact ih s (by rw [hsp]; exact List.mem_cons_of_mem _ hs) c hc

/-- Helper: canonical paths are nonempty with nonempty, dot-free,
slash-free segments. -/
theorem isCanonPath_segs (p : List Char) (h : isCanonPath p = true) :
    p ≠ [] ∧ ∀ s ∈ splitSlash p, s ≠ [] ∧ s ≠ ['.'] ∧ s ≠ ['.', '.'] ∧ ∀ c ∈ s, c ≠ '/' := by
  unfold isCanonPath at h
  rw [Bool.and_eq_true] at h
  obtain ⟨h1, h2⟩ := h
  refine ⟨of_decide_eq_true h1, ?_⟩
  intro s hs
  have h3 := List.all_eq_true.mp h2 s hs
  unfold isCanonSeg at h3
  rw [Bool.and_eq_true, Bool.and_eq_true] at h3
  obtain ⟨⟨a1, a2⟩, a3⟩ := h3
  exact ⟨of_decide_eq_true a1, of_decide_eq_true a2, of_decide_eq_true a3,
    splitSlash_seg_no_slash p s hs⟩

/-- Helper: a canonical path does not start with a slash. -/
theorem isCanonPath_take1 (p : List Char) (h : isCanonPath p = true) :
    p.take 1 ≠ ['/'] := by
  obtain ⟨hne, hsegs⟩ := isCanonPath_segs p h
  match p, hne with
  | c :: rest, _ =>
    intro hcontra
    have hc : c = '/' := by simpa using hcontra
    subst hc
    have hmem : ([] : List Char) ∈ splitSlash ('/' :: rest) := by
      rw [splitSlash_cons_slash]
      exact List.mem_cons_self _ _
    exact (hsegs [] hmem).1 rfl

/-- Helper: a canonical path does not end with a slash. -/
theorem isCanonPath_getLast (p : List Char) (h : isCanonPath p = true) :
    p.getLast? ≠ some '/' := by
  obtain ⟨hne, hsegs⟩ := isCanonPath_segs p h
  intro hl
  rw [List.getLast?_eq_getLast p hne] at hl
  have hlast : p.getLast hne = '/' := Option.some.inj hl
  have hsplit : p.dropLast ++ '/' :: [] = p := by
    rw [← hlast]
    exact List.dropLast_append_getLast hne
  have hmem : ([] : List Char) ∈ splitSlash p := by
    rw [← hsplit, splitSlash_append_slash]
    exact List.mem_append.mpr (Or.inr (by rw [splitSlash]; exact List.mem_cons_self _ _))
  exact (hsegs [] hmem).1 rfl

/-- Helper: the normpath component loop pushes canonical segments. -/
theorem normComps_push (L : List (List Char))
    (hL : ∀ s ∈ L, s ≠ [] ∧ s ≠ ['.'] ∧ s ≠ ['.', '.']) :
    ∀ acc, L.foldl (normStep false) acc = acc ++ L := by
  induction L with
  | nil => intro acc; simp
  | cons s rest ih =>
    intro acc
    rw [List.foldl_cons]
    obtain ⟨h1, h2, h3⟩ := hL s (List.mem_cons_self _ _)
    have hstep : normStep false acc s = acc ++ [s] := by
      unfold normStep
      rw [if_neg (by rintro (hc | hc); exact h1 hc; exact h2 hc)]
      rw [if_pos (by unfold dotdot; exact h3)]
    rw [hstep, ih (fun x hx => hL x (List.mem_cons_of_mem _ hx))]
    simp

/-- Helper: the normpath component loop pops one trailing component per
`..`, for accumulators free of `..`. -/
theorem normComps_pop (m : Nat) :
    ∀ acc : List (List Char), (∀ s ∈ acc, s ≠ ['.', '.']) → m ≤ acc.length →
      (List.replicate m dotdot).foldl (normStep false) acc =
        acc.take (acc.length - m) := by
  induction m with
  | zero => intro acc h hm; simp
  | succ m ih =>
    intro acc h hm
    rw [List.replicate_succ, List.foldl_cons]
    have haccne : acc ≠ [] := by
      intro h0
      rw [h0] at hm
      simp at hm
    have hlast : acc.getLast? ≠ some dotdot := by
      intro hl
      rw [List.getLast?_eq_getLast acc haccne] at hl
      have := List.getLast_mem haccne
      rw [Option.some.inj hl] at this
      exact h dotdot this rfl
    have hstep : normStep false acc dotdot = acc.dropLast := by
      unfold normStep
      rw [if_neg (by rintro (hc | hc) <;> simp [dotdot] at hc)]
      rw [if_neg (by simp)]
      rw [if_neg (by rintro (⟨_, hc⟩ | ⟨_, hc⟩); exact haccne hc; exact hlast hc)]
      rw [if_pos haccne]
    rw [hstep]
    rw [ih acc.dropLast (fun s hs => h s (List.dropLast_subset _ hs))
      (by rw [List.length_dropLast]; omega)]
    rw [List.dropLast_eq_take, List.take_take, List.length_take]
    congr 1
    omega

/-- Helper: `normpath` of a canonical path is the path itself. -/
theorem normpathB_canon (p : List Char) (h : isCanonPath p = true) : normpathB p = p := by
  obtain ⟨hne, hsegs⟩ := isCanonPath_segs p h
  have hisl : initSlashes p = 0 := by
    unfold initSlashes
    rw [if_neg (isCanonPath_take1 p h)]
  simp only [normpathB, hisl, if_neg hne]
  unfold normComps
  rw [show (decide (0 < 0)) = false by decide]
  rw [normComps_push _ (fun s hs => ⟨(hsegs s hs).1, (hsegs s hs).2.1, (hsegs s hs).2.2.1⟩) []]
  rw [List.nil_append, List.replicate_zero, List.nil_append, joinSegs_splitSlash]
  rw [if_neg hne]

/-- Helper: nonempty-component extraction of a canonical path is its split. -/
theorem relSegsOf_canon (p : List Char) (h : isCanonPath p = true) :
    relSegsOf p = splitSlash p := by
  obtain ⟨hne, hsegs⟩ := isCanonPath_segs p h
  unfold relSegsOf
  rw [List.filter_eq_self]
  intro s hs
  rw [Bool.not_eq_true', List.isEmpty_eq_false]
  exact (hsegs s hs).1

/-- Helper: the common prefix length is bounded by both lists. -/
theorem commonPrefixLen_le : ∀ a b : List (List Char),
    commonPrefixLen a b ≤ a.length ∧ commonPrefixLen a b ≤ b.length := by
  intro a
  induction a with
  | nil => intro b; simp [commonPrefixLen]
  | cons x as ih =>
    intro b
    match b with
    | [] => simp [commonPrefixLen]
    | y :: bs =>
      unfold commonPrefixLen
      by_cases hxy : x = y
      · rw [if_pos hxy]
        obtain ⟨h1, h2⟩ := ih bs
        constructor <;> simp <;> omega
      · rw [if_neg hxy]
        simp

/-- Helper: both lists agree on their common prefix. -/
theorem commonPrefixLen_take : ∀ a b : List (List Char),
    a.take (commonPrefixLen a b) = b.take (commonPrefixLen a b) := by
  intro a
  induction a with
  | nil => intro b; simp [commonPrefixLen]
  | cons x as ih =>
    intro b
    match b with
    | [] => simp [commonPrefixLen]
    | y :: bs =>
      unfold commonPrefixLen
      by_cases hxy : x = y
      · rw [if_pos hxy]
        simp only [List.take_succ_cons, hxy, ih bs]
      · rw [if_neg hxy]
        simp

/-- Helper: the first character of an append with a nonempty head. -/
theorem take1_append (a b : List Char) (ha : a ≠ []) : (a ++ b).take 1 = a.take 1 := by
  match a, ha with
  | c :: rest, _ => rfl

/-- Helper: a join of nonempty slash-free pieces does not start with a
slash. -/
theorem joinSegs_take1_ne_slash (L : List (List Char)) (hL : L ≠ [])
    (h : ∀ s ∈ L, s ≠ [] ∧ ∀ c ∈ s, c ≠ '/') :
    (joinSegs L).take 1 ≠ ['/'] := by
  match L, hL with
  | s :: rest, _ =>
    obtain ⟨hs, hns⟩ := h s (List.mem_cons_self _ _)
    match s, hs with
    | c :: s2, _ =>
      have hc : c ≠ '/' := hns c (List.mem_cons_self _ _)
      have htake : (joinSegs ((c :: s2) :: rest)).take 1 = [c] := by
        match rest with
        | [] => rfl
        | r :: rs => rfl
      rw [htake]
      intro hcontra
      exact hc (List.cons.inj hcontra).1

/-- Helper: joining a path with a nonempty relative suffix under posixpath
`join` inserts exactly one slash when the path is canonical. -/
theorem joinB_canon (dir rel : List Char) (hdir : isCanonPath dir = true)
    (hrel : rel.take 1 ≠ ['/']) :
    joinB dir rel = dir ++ '/' :: rel := by
  obtain ⟨hdne, _⟩ := isCanonPath_segs dir hdir
  unfold joinB
  rw [if_neg hrel]
  rw [if_neg (by
    rintro (hc | hc)
    · exact hdne hc
    · exact isCanonPath_getLast dir hdir hc)]

/-- Helper: the posixpath round trip at the heart of reference rewriting:
normalizing the join of `dir` with the relative path from `dir` to a
canonical `target` yields `target` again. -/
theorem normpath_join_relpath (dir target : List Char)
    (hdir : dir = [] ∨ isCanonPath dir = true) (htgt : isCanonPath target = true) :
    normpathB (joinB dir (relpathB target dir)) = target := by
  obtain ⟨htne, htsegs⟩ := isCanonPath_segs target htgt
  have hTne : splitSlash target ≠ [] := splitSlash_ne_nil target
  rcases hdir with hdir | hdir
  · subst hdir
    have h0 : relpathB target [] = target := by
      simp only [relpathB]
      rw [relSegsOf_canon target htgt]
      rw [show relSegsOf ([] : List Char) = [] from rfl]
      rw [show commonPrefixLen [] (splitSlash target) = 0 from rfl]
      simp only [List.length_nil, Nat.zero_sub, List.replicate_zero, List.nil_append,
        List.drop_zero]
      rw [if_neg hTne, joinSegs_splitSlash]
    rw [h0]
    have hjb : joinB [] target = target := by
      unfold joinB
      rw [if_neg (isCanonPath_take1 target htgt), if_pos (Or.inl rfl), List.nil_append]
    rw [hjb]
    exact normpathB_canon target htgt
  · obtain ⟨hdne, hdsegs⟩ := isCanonPath_segs dir hdir
    have hsl := relSegsOf_canon dir hdir
    have hpl := relSegsOf_canon target htgt
    have e1 : joinSegs (splitSlash dir) = dir := joinSegs_splitSlash dir
    have e2 : joinSegs (splitSlash target) = target := joinSegs_splitSlash target
    set D := splitSlash dir with hD
    set T := splitSlash target with hT
    set i := commonPrefixLen D T with hi
    obtain ⟨hile, hile2⟩ := commonPrefixLen_le D T
    have htake := commonPrefixLen_take D T
    have hDsegs : ∀ s ∈ D, s ≠ [] ∧ s ≠ ['.'] ∧ s ≠ ['.', '.'] := by
      intro s hs
      exact ⟨(hdsegs s hs).1, (hdsegs s hs).2.1, (hdsegs s hs).2.2.1⟩
    by_cases hrel : List.replicate (D.length - i) dotdot ++ T.drop i = []
    · obtain ⟨hrep, hdrop⟩ := List.append_eq_nil.mp hrel
      rw [List.replicate_eq_nil] at hrep
      rw [List.drop_eq_nil_iff_le] at hdrop
      have hieq : i = D.length := by omega
      have hieq2 : i = T.length := by omega
      have hDT : D = T := by
        have h1 : D.take i = D := by rw [hieq]; exact List.take_length D
        have h2 : T.take i = T := by rw [hieq2]; exact List.take_length T
        rw [← h1, htake, h2]
      have hdt : dir = target := by rw [← e1, hDT, e2]
      have hrp : relpathB target dir = ['.'] := by
        simp only [relpathB]
        rw [hsl, hpl, ← hi, if_pos hrel]
      rw [hrp, joinB_canon dir ['.'] hdir (by decide)]
      have hne2 : dir ++ '/' :: ['.'] ≠ [] := by simp
      have hisl : initSlashes (dir ++ '/' :: ['.']) = 0 := by
        unfold initSlashes
        rw [take1_append _ _ hdne, if_neg (isCanonPath_take1 dir hdir)]
      have hsplit2 : splitSlash (dir ++ '/' :: ['.']) = D ++ [['.']] := by
        rw [splitSlash_append_slash, ← hD]
        rfl
      simp only [normpathB, hisl, if_neg hne2, hsplit2, List.replicate_zero,
        List.nil_append]
      rw [show decide (0 < 0) = false from rfl]
      unfold normComps
      rw [List.foldl_append]
      rw [normComps_push D hDsegs []]
      rw [List.nil_append, List.foldl_cons, List.foldl_nil]
      rw [show normStep false D ['.'] = D from by unfold normStep; rw [if_pos (Or.inr rfl)]]
      rw [e1, if_neg hdne]
      exact hdt
    · have hrelsegs : ∀ s ∈ List.replicate (D.length - i) dotdot ++ T.drop i,
          s ≠ [] ∧ ∀ c ∈ s, c ≠ '/' := by
        intro s hs
        rcases List.mem_append.mp hs with hs | hs
        · rw [List.eq_of_mem_replicate hs]
          exact ⟨by decide, by decide⟩
        · have hsT : s ∈ T := List.mem_of_mem_drop hs
          exact ⟨(htsegs s hsT).1, (htsegs s hsT).2.2.2⟩
      have hrp : relpathB target dir =
          joinSegs (List.replicate (D.length - i) dotdot ++ T.drop i) := by
        simp only [relpathB]
        rw [hsl, hpl, ← hi, if_neg hrel]
      rw [hrp, joinB_canon dir _ hdir (joinSegs_take1_ne_slash _ hrel hrelsegs)]
      have hne2 : dir ++ '/' :: joinSegs (List.replicate (D.length - i) dotdot ++ T.drop i) ≠ [] := by
        simp
      have hisl : initSlashes (dir ++ '/' ::
          joinSegs (List.replicate (D.length - i) dotdot ++ T.drop i)) = 0 := by
        unfold initSlashes
        rw [take1_append _ _ hdne, if_neg (isCanonPath_take1 dir hdir)]
      have hsplit2 : splitSlash (dir ++ '/' ::
          joinSegs (List.replicate (D.length - i) dotdot ++ T.drop i)) =
          D ++ (List.replicate (D.length - i) dotdot ++ T.drop i) := by
        rw [splitSlash_append_slash, ← hD, splitSlash_joinSegs _ hrel hrelsegs]
      simp only [normpathB, hisl, if_neg hne2, hsplit2, List.replicate_zero,
        List.nil_append]
      rw [show decide (0 < 0) = false from rfl]
      unfold normComps
      rw [List.foldl_append, normComps_push D hDsegs [], List.nil_append]
      rw [List.foldl_append]
      rw [normComps_pop (D.length - i) D (fun s hs => (hDsegs s hs).2.2) (by omega)]
      rw [show D.length - (D.length - i) = i from by omega]
      rw [normComps_push (T.drop i)
        (fun s hs => by
          have hsT : s ∈ T := List.mem_of_mem_drop hs
          exact ⟨(htsegs s hsT).1, (htsegs s hsT).2.1, (htsegs s hsT).2.2.1⟩)
        (D.take i)]
      rw [htake, List.take_append_drop, e2, if_neg htne]

/-- Helper: a character `quote` keeps literally is not a percent sign. -/
theorem quote_literal_ne_percent (c : Char)
    (h : (alwaysSafeB c || safeChars.contains c) = true) : c ≠ '%' := by
  intro hc
  subst hc
  revert h
  decide

/-- Helper: unquoting steps over a non-percent head. -/
theorem unquote_cons_ne (c : Char) (q : List Char) (hc : c ≠ '%') :
    unquoteBytes (c :: q) = c :: unquoteBytes q := by
  match q with
  | [] => rfl
  | [d] => rfl
  | d :: e :: rest =>
    conv_lhs => rw [unquoteBytes]
    rw [if_neg (by rintro ⟨h1, _⟩; exact hc h1)]

/-- Helper: hex digits produced for nibbles are accepted back. -/
theorem hexDigitU_isHex : ∀ m, m < 16 → isHexB (hexDigitU m) = true := by decide

/-- Helper: hex digits produced for nibbles decode to the nibble. -/
theorem hexVal_hexDigitU : ∀ m, m < 16 → hexVal (hexDigitU m) = m := by decide

/-- Helper: percent-decoding inverts percent-encoding on byte strings
(every character below 256). -/
theorem unquote_quote (s : List Char) (hb : ∀ c ∈ s, c.toNat < 256) :
    unquoteBytes (quoteBytes safeChars s) = s := by
  induction s with
  | nil => rfl
  | cons c rest ih =>
    rw [quoteBytes]
    have hbc := hb c (List.mem_cons_self _ _)
    have ihr := ih (fun x hx => hb x (List.mem_cons_of_mem _ hx))
    unfold quoteByte
    by_cases hlit : (alwaysSafeB c || safeChars.contains c) = true
    · rw [if_pos hlit, List.cons_append, List.nil_append]
      rw [unquote_cons_ne c _ (quote_literal_ne_percent c hlit), ihr]
    · rw [if_neg hlit, List.cons_append, List.cons_append, List.cons_append,
        List.nil_append]
      conv_lhs => rw [unquoteBytes]
      rw [if_pos ⟨rfl, hexDigitU_isHex _ (by omega), hexDigitU_isHex _ (by omega)⟩]
      rw [hexVal_hexDigitU _ (by omega), hexVal_hexDigitU _ (by omega)]
      rw [Nat.div_add_mod', Char.ofNat_toNat, ihr]

/-- Helper: percent-encoded byte strings contain no `#`. -/
theorem quoteBytes_no_hash (s : List Char) (hb : ∀ c ∈ s, c.toNat < 256) :
    ∀ c ∈ quoteBytes safeChars s, c ≠ '#' := by
  induction s with
  | nil => intro c hc; simp [quoteBytes] at hc
  | cons d rest ih =>
    intro c hc
    rw [quoteBytes] at hc
    rcases List.mem_append.mp hc with hc | hc
    · unfold quoteByte at hc
      by_cases hlit : (alwaysSafeB d || safeChars.contains d) = true
      · rw [if_pos hlit] at hc
        rw [List.mem_singleton] at hc
        subst hc
        intro hd
        subst hd
        revert hlit
        decide
      · rw [if_neg hlit] at hc
        have hbd := hb d (List.mem_cons_self _ _)
        have hhex : ∀ m, m < 16 → hexDigitU m ≠ '#' := by decide
        rcases List.mem_cons.mp hc with hc | hc
        · rw [hc]; decide
        · rcases List.mem_cons.mp hc with hc | hc
          · rw [hc]; exact hhex _ (by omega)
          · rw [List.mem_singleton] at hc
            rw [hc]; exact hhex _ (by omega)
    · exact ih (fun x hx => hb x (List.mem_cons_of_mem _ hx)) c hc

/-- Helper: fragment splitting skips a hash-free prefix. -/
theorem fragSplit_append_no_hash (q r : List Char) (h : ∀ c ∈ q, c ≠ '#') :
    fragSplit (q ++ r) = (q ++ (fragSplit r).1, (fragSplit r).2) := by
  induction q with
  | nil => simp
  | cons c rest ih =>
    rw [List.cons_append]
    simp only [fragSplit]
    rw [if_neg (h c (List.mem_cons_self _ _))]
    rw [ih (fun x hx => h x (List.mem_cons_of_mem _ hx))]
    rfl

/-- Helper: the fragment part is empty or starts with `#`. -/
theorem fragSplit_snd (v : List Char) :
    (fragSplit v).2 = [] ∨ ∃ t, (fragSplit v).2 = '#' :: t := by
  induction v with
  | nil => exact Or.inl rfl
  | cons c rest ih =>
    simp only [fragSplit]
    by_cases hc : c = '#'
    · rw [if_pos hc]
      exact Or.inr ⟨rest, rfl⟩
    · rw [if_neg hc]
      exact ih

/-- Helper: characters of a computed relative path are dots, slashes, or
characters of the target. -/
theorem mem_joinSegs (L : List (List Char)) :
    ∀ c ∈ joinSegs L, c = '/' ∨ ∃ s ∈ L, c ∈ s := by
  induction L with
  | nil => intro c hc; simp [joinSegs] at hc
  | cons s rest ih =>
    intro c hc
    match rest, ih, hc with
    | [], _, hc =>
      rw [joinSegs] at hc
      exact Or.inr ⟨s, List.mem_cons_self _ _, hc⟩
    | r :: rs, ih, hc =>
      rw [joinSegs] at hc
      rcases List.mem_append.mp hc with hc | hc
      · exact Or.inr ⟨s, List.mem_cons_self _ _, hc⟩
      · rcases List.mem_cons.mp hc with hc | hc
        · exact Or.inl hc
        · rcases ih c hc with h | ⟨s2, hs2, hcs⟩
          · exact Or.inl h
          · exact Or.inr ⟨s2, List.mem_cons_of_mem _ hs2, hcs⟩

/-- Helper: the relative path's characters come from the target, up to
dots and slashes. -/
theorem relpathB_chars (target dir : List Char) :
    ∀ c ∈ relpathB target dir, c = '.' ∨ c = '/' ∨ c ∈ target := by
  intro c hc
  simp only [relpathB] at hc
  by_cases hrel : List.replicate ((relSegsOf dir).length -
      commonPrefixLen (relSegsOf dir) (relSegsOf target)) dotdot ++
      (relSegsOf target).drop (commonPrefixLen (relSegsOf dir) (relSegsOf target)) = []
  · rw [if_pos hrel] at hc
    rw [List.mem_singleton] at hc
    exact Or.inl hc
  · rw [if_neg hrel] at hc
    rcases mem_joinSegs _ c hc with h | ⟨s, hs, hcs⟩
    · exact Or.inr (Or.inl h)
    · rcases List.mem_append.mp hs with hs | hs
      · rw [List.eq_of_mem_replicate hs] at hcs
        rcases List.mem_cons.mp hcs with h | h
        · exact Or.inl h
        · rw [List.mem_singleton] at h
          exact Or.inl h
      · have hsT : s ∈ relSegsOf target := List.mem_of_mem_drop hs
        have hsT2 : s ∈ splitSlash target := List.mem_of_mem_filter hsT
        exact Or.inr (Or.inr (mem_splitSlash_mem target s hsT2 c hcs))

/-- C2 counterexample: an attribute value that is empty after fragment
stripping (`#f`) resolves — per the claim's own resolution rule — to the
document directory itself; when that path is a rename-map key the rewriter
leaves the value unchanged, so re-resolving it yields the old path, not the
renamed one. -/
theorem replace_attr_roundtrip_counterexample :
    ([(['a'], ['b'])] : List (List Char × List Char)).lookup
      (normpathB (joinB ['a'] (unquoteBytes (fragSplit ['#', 'f']).1))) = some ['b'] ∧
    resolveRef ['a'] (replaceAttrValue [(['a'], ['b'])] ['a'] ['#', 'f']) = ['a'] ∧
    (['a'] : List Char) ≠ ['b'] := by
  refine ⟨by decide, by decide, by decide⟩

/-- C2 amended.  For every rename map, document directory and attribute
value whose fragment-stripped part is non-empty: if the fragment-stripped,
percent-decoded resolution of the value against the document directory is
a key of the rename map, then resolving the substituted attribute value
the same way yields exactly the renamed (canonical, byte-string) bookpath
(`_update_references_in_content`, merge_epub.py:251-275). -/
theorem replace_attr_roundtrip (rm : List (List Char × List Char))
    (dir value target : List Char)
    (hdir : dir = [] ∨ isCanonPath dir = true)
    (htgt : isCanonPath target = true)
    (hbytes : ∀ c ∈ target, c.toNat < 256)
    (hv : (fragSplit value).1 ≠ [])
    (hit : rm.lookup (normpathB (joinB dir (unquoteBytes (fragSplit value).1))) =
      some target) :
    resolveRef dir (replaceAttrValue rm dir value) = target := by
  have hrepl : replaceAttrValue rm dir value =
      quoteBytes safeChars (relpathB target dir) ++ (fragSplit value).2 := by
    simp only [replaceAttrValue]
    rw [if_neg hv, hit]
  have hrelbytes : ∀ c ∈ relpathB target dir, c.toNat < 256 := by
    intro c hc
    rcases relpathB_chars target dir c hc with h | h | h
    · rw [h]; decide
    · rw [h]; decide
    · exact hbytes c h
  have hQ : ∀ c ∈ quoteBytes safeChars (relpathB target dir), c ≠ '#' :=
    quoteBytes_no_hash _ hrelbytes
  have hfs : (fragSplit (quoteBytes safeChars (relpathB target dir) ++
      (fragSplit value).2)).1 = quoteBytes safeChars (relpathB target dir) := by
    rw [fragSplit_append_no_hash _ _ hQ]
    rcases fragSplit_snd value with h | ⟨t, h⟩
    · rw [h]
      simp [fragSplit]
    · rw [h]
      simp [fragSplit]
  rw [hrepl]
  unfold resolveRef
  rw [hfs, unquote_quote _ hrelbytes]
  exact normpath_join_relpath dir target hdir htgt

/-- Witness for the amended C2: a document in `OEBPS/text` referencing
`../img/pic.png#frag`, renamed to `OEBPS/img/vol2_pic.png`. -/
theorem replace_attr_roundtrip_witness :
    resolveRef "OEBPS/text".toList
      (replaceAttrValue [("OEBPS/img/pic.png".toList, "OEBPS/img/vol2_pic.png".toList)]
        "OEBPS/text".toList "../img/pic.png#frag".toList) =
      "OEBPS/img/vol2_pic.png".toList :=
  replace_attr_roundtrip
    [("OEBPS/img/pic.png".toList, "OEBPS/img/vol2_pic.png".toList)]
    "OEBPS/text".toList "../img/pic.png#frag".toList "OEBPS/img/vol2_pic.png".toList
    (Or.inr (by decide)) (by decide) (by decide) (by decide) (by decide)

/-- C6 counterexample: the spec's claimed safe set contains `?`, but the
code's `safe_chars` (merge_epub.py:272) does not: a `?` in the computed
relative path is percent-encoded in the substituted value (`b%3Fc`), so it
does not appear unescaped. -/
theorem safe_charset_counterexample :
    '?' ∈ claimedSafeChars ∧
    relpathB "b?c".toList [] = "b?c".toList ∧
    '?' ∈ "b?c".toList ∧
    replaceAttrValue [("a".toList, "b?c".toList)] [] "a".toList = "b%3Fc".toList ∧
    '?' ∉ "b%3Fc".toList := by
  refine ⟨by decide, by decide, by decide, by decide, by decide⟩

/-- Helper: quoting with the code's safe set keeps each safe character's
occurrence count (safe characters pass through literally and escapes
introduce only `%` and hex digits, none of which are in the safe set). -/
theorem count_quoteBytes_safe (s : List Char) (hb : ∀ c ∈ s, c.toNat < 256)
    (c : Char) (hc : c ∈ safeChars) :
    List.count c (quoteBytes safeChars s) = List.count c s := by
  induction s with
  | nil => rfl
  | cons d rest ih =>
    rw [quoteBytes, List.count_append, List.count_cons]
    have ihr := ih (fun x hx => hb x (List.mem_cons_of_mem _ hx))
    rw [ihr]
    have hbd := hb d (List.mem_cons_self _ _)
    unfold quoteByte
    by_cases hlit : (alwaysSafeB d || safeChars.contains d) = true
    · rw [if_pos hlit]
      simp only [List.count_singleton', beq_iff_eq]
      omega
    · rw [if_neg hlit]
      have hdc : ¬ d = c := by
        intro hdc
        subst hdc
        exact hlit (by simp [hc])
      have hhexsafe : ∀ m, m < 16 → ∀ x ∈ safeChars, hexDigitU m ≠ x := by decide
      have hpsafe : ∀ x ∈ safeChars, ('%' : Char) ≠ x := by decide
      have hcount : List.count c ['%', hexDigitU (d.toNat / 16), hexDigitU (d.toNat % 16)] = 0 := by
        rw [List.count_eq_zero]
        intro hmem
        rcases List.mem_cons.mp hmem with h | h
        · exact hpsafe c hc h.symm
        · rcases List.mem_cons.mp h with h | h
          · exact hhexsafe _ (by omega) c hc h.symm
          · rw [List.mem_singleton] at h
            exact hhexsafe _ (by omega) c hc h.symm
      rw [hcount]
      simp [beq_iff_eq, hdc]

/-- C6 amended.  For every rename-map hit (non-empty fragment-stripped
value), the substituted attribute value is the percent-encoding of the new
relative path — with the code's safe set `/:@!$&'()*+,;=`, not the spec's
`:/?#[]@!$&'()*+,;=` — followed by the fragment, and every character of the
code's safe set occurring in the computed relative path appears unescaped
(its occurrence count is preserved by the encoding). -/
theorem safe_charset_spec (rm : List (List Char × List Char))
    (dir value target : List Char)
    (hbytes : ∀ c ∈ target, c.toNat < 256)
    (hv : (fragSplit value).1 ≠ [])
    (hit : rm.lookup (normpathB (joinB dir (unquoteBytes (fragSplit value).1))) =
      some target) :
    replaceAttrValue rm dir value =
      quoteBytes safeChars (relpathB target dir) ++ (fragSplit value).2 ∧
    ∀ c ∈ safeChars,
      List.count c (quoteBytes safeChars (relpathB target dir)) =
        List.count c (relpathB target dir) := by
  constructor
  · simp only [replaceAttrValue]
    rw [if_neg hv, hit]
  · intro c hc
    refine count_quoteBytes_safe _ ?_ c hc
    intro x hx
    rcases relpathB_chars target dir x hx with h | h | h
    · rw [h]; decide
    · rw [h]; decide
    · exact hbytes x h

/-- Witness for the amended C6: the rename hit of the C2 witness; the `/`
in the relative path stays unescaped. -/
theorem safe_charset_spec_witness :
    (replaceAttrValue [("OEBPS/img/pic.png".toList, "OEBPS/img/vol2_pic.png".toList)]
      "OEBPS/text".toList "../img/pic.png#frag".toList =
      quoteBytes safeChars (relpathB "OEBPS/img/vol2_pic.png".toList "OEBPS/text".toList) ++
        (fragSplit "../img/pic.png#frag".toList).2) ∧
    ∀ c ∈ safeChars,
      List.count c (quoteBytes safeChars
        (relpathB "OEBPS/img/vol2_pic.png".toList "OEBPS/text".toList)) =
        List.count c (relpathB "OEBPS/img/vol2_pic.png".toList "OEBPS/text".toList) :=
  safe_charset_spec
    [("OEBPS/img/pic.png".toList, "OEBPS/img/vol2_pic.png".toList)]
    "OEBPS/text".toList "../img/pic.png#frag".toList "OEBPS/img/vol2_pic.png".toList
    (by decide) (by decide) (by decide)
